import Mathlib

/-!
# A verification development for `jwks.go`

The Go package `jwks` parses a JSON Web Key Set into a `Keystore`
(`map[string]*JSONKey`) and resolves RSA public keys by key ID.

The development has four layers.

* `encoding/json`: the part of `json.Unmarshal` that `New` uses, that is decoding into a
  `rawKeystore` (a struct holding a slice of structs of string fields).  Go strings are
  modelled by Lean strings, so the inputs covered are the byte sequences that are valid
  UTF-8.
* the heap: `Keystore` stores pointers, and `New` stores the address of its loop variable,
  so `JSONKey` values live in numbered cells.
* `New` and `Keystore.RSA`, translated from `jwks.go`.
* `JSONKey.RSA`, the method `Keystore.RSA` ends with.  Its file is not part of the source
  tree at hand, so it is modelled from the specification.
-/

namespace jwks

/-! ## Data model -/

/-- RS256 represents a cryptography key generated by an RSA algorithm. -/
def RS256 : String := "RS256"

/-- The fields of `rsa.PublicKey`: the modulus `N`, a `*big.Int` that holds a magnitude,
and the public exponent `E`, a Go `int`.  The values an `int` can take are those that
`goInt` yields. -/
structure PublicKey where
  N : Nat
  E : Int
deriving DecidableEq, Repr

/-- The two error types `json.Unmarshal` can return for the target type `*rawKeystore`
(messages and offsets are not modelled). -/
inductive DecodeError where
  | SyntaxError
  | UnmarshalTypeError
deriving DecidableEq, Repr

/-- The error values of the package: the two sentinels of `jwks.go`, an error handed on
from `json.Unmarshal`, and the decoding failure of `JSONKey.RSA`. -/
inductive Error where
  | ErrKIDNotFound
  | ErrNotExpectedKeyType
  | Unmarshal (e : DecodeError)
  | MalformedKeyMaterial
deriving DecidableEq, Repr

/-- JSONKey represents a raw key inside a JWKS.  The unexported field `precomputed`
(an `interface{}`) is `none` for the nil interface. -/
structure JSONKey where
  Exponent : String
  ID : String
  Alg : String
  Modulus : String
  precomputed : Option PublicKey
deriving DecidableEq, Repr

/-- The zero value of `JSONKey`. -/
def JSONKey.zero : JSONKey := ⟨"", "", "", "", none⟩

/-- The type rawKeystore represents a JWKS in JSON format (a nil slice and an empty slice
are both the empty list: `New` only ranges over `Keys` and takes its length). -/
structure rawKeystore where
  Keys : List JSONKey
deriving DecidableEq, Repr

/-! ## `encoding/json`: scanning -/

/-- A JSON value as the scanner of `encoding/json` delimits it.  String values and member
names are held unquoted; the text of a number is not used by any target field. -/
inductive JSON where
  | null
  | bool (b : Bool)
  | number
  | string (s : String)
  | array (elems : List JSON)
  | object (members : List (String × JSON))

/-- The nesting limit of the scanner (`maxNestingDepth`). -/
def maxNestingDepth : Nat := 10000

/-- JSON white space (`isSpace`). -/
def isSpace (c : Char) : Bool :=
  c = ' ' || c = '\t' || c = '\r' || c = '\n'

/-- Drops leading white space. -/
def skipSpace : List Char → List Char
  | [] => []
  | c :: cs => if isSpace c then skipSpace cs else c :: cs

/-- Consumes the expected characters `lit`, or fails. -/
def expect : List Char → List Char → Option (List Char)
  | [], cs => some cs
  | _ :: _, [] => none
  | l :: ls, c :: cs => if l = c then expect ls cs else none

/-- Decimal digit test. -/
def isDigit (c : Char) : Bool := '0' ≤ c && c ≤ '9'

/-- Drops leading decimal digits. -/
def skipDigits : List Char → List Char
  | [] => []
  | c :: cs => if isDigit c then skipDigits cs else c :: cs

/-- Consumes one or more decimal digits. -/
def digits1 : List Char → Option (List Char)
  | [] => none
  | c :: cs => if isDigit c then some (skipDigits cs) else none

/-- Optional fraction of a number: a dot and one or more digits. -/
def scanFrac : List Char → Option (List Char)
  | '.' :: cs => digits1 cs
  | cs => some cs

/-- Optional exponent of a number: `e` or `E`, an optional sign, one or more digits. -/
def scanExp : List Char → Option (List Char)
  | [] => some []
  | c :: cs =>
    if c = 'e' || c = 'E' then
      match cs with
      | [] => none
      | s :: ds => if s = '+' || s = '-' then digits1 ds else digits1 (s :: ds)
    else some (c :: cs)

/-- Integer part of a number: `0`, or a nonzero digit followed by digits. -/
def scanInt : List Char → Option (List Char)
  | [] => none
  | c :: cs =>
    if c = '0' then some cs
    else if isDigit c then some (skipDigits cs)
    else none

/-- A JSON number: optional minus, integer part, optional fraction, optional exponent. -/
def scanNumber (cs : List Char) : Option (List Char) :=
  let body := match cs with
    | '-' :: r => r
    | r => r
  (scanInt body).bind fun r => (scanFrac r).bind scanExp

/-- Value of a hexadecimal digit. -/
def hexVal (c : Char) : Option Nat :=
  if '0' ≤ c && c ≤ '9' then some (c.toNat - '0'.toNat)
  else if 'a' ≤ c && c ≤ 'f' then some (c.toNat - 'a'.toNat + 10)
  else if 'A' ≤ c && c ≤ 'F' then some (c.toNat - 'A'.toNat + 10)
  else none

/-- Reads `\uXXXX` at the head of the input (`getu4`): the code unit and the rest. -/
def getu4 : List Char → Option (Nat × List Char)
  | '\\' :: 'u' :: a :: b :: c :: d :: rest =>
    (hexVal a).bind fun x => (hexVal b).bind fun y => (hexVal c).bind fun z =>
      (hexVal d).bind fun w => some (((x * 16 + y) * 16 + z) * 16 + w, rest)
  | _ => none

/-- The replacement character U+FFFD. -/
def replacementChar : Char := Char.ofNat 0xFFFD

/-- The body of a string after its opening quote (scanner and `unquote` together): the
unquoted text, kept reversed in `acc`, and the input after the closing quote.  Control
characters are refused, a surrogate escape that is not the first half of a valid pair
becomes U+FFFD. -/
def scanString : Nat → List Char → List Char → Option (String × List Char)
  | 0, _, _ => none
  | _ + 1, [], _ => none
  | fuel + 1, c :: cs, acc =>
    if c = '"' then some (String.mk acc.reverse, cs)
    else if c = '\\' then
      match cs with
      | [] => none
      | e :: rest =>
        if e = '"' || e = '\\' || e = '/' then scanString fuel rest (e :: acc)
        else if e = 'b' then scanString fuel rest (Char.ofNat 8 :: acc)
        else if e = 'f' then scanString fuel rest (Char.ofNat 12 :: acc)
        else if e = 'n' then scanString fuel rest ('\n' :: acc)
        else if e = 'r' then scanString fuel rest ('\r' :: acc)
        else if e = 't' then scanString fuel rest ('\t' :: acc)
        else if e = 'u' then
          match getu4 (c :: cs) with
          | none => none
          | some (rr, rest1) =>
            if 0xD800 ≤ rr ∧ rr < 0xE000 then
              match getu4 rest1 with
              | some (rr1, rest2) =>
                if rr < 0xDC00 ∧ 0xDC00 ≤ rr1 ∧ rr1 < 0xE000 then
                  scanString fuel rest2
                    (Char.ofNat ((rr - 0xD800) * 0x400 + (rr1 - 0xDC00) + 0x10000) :: acc)
                else scanString fuel rest1 (replacementChar :: acc)
              | none => scanString fuel rest1 (replacementChar :: acc)
            else scanString fuel rest1 (Char.ofNat rr :: acc)
        else none
    else if c.toNat < 0x20 then none
    else scanString fuel cs (c :: acc)

mutual
/-- One JSON value, after optional white space.  `depth` counts the arrays and objects
that are open; opening one beyond `maxNestingDepth` is an error. -/
def scanValue : Nat → Nat → List Char → Option (JSON × List Char)
  | 0, _, _ => none
  | fuel + 1, depth, cs =>
    match skipSpace cs with
    | [] => none
    | c :: rest =>
      if c = '[' then
        if maxNestingDepth < depth + 1 then none
        else match skipSpace rest with
          | [] => none
          | d :: r =>
            if d = ']' then some (JSON.array [], r)
            else scanElems fuel (depth + 1) (d :: r) []
      else if c = '{' then
        if maxNestingDepth < depth + 1 then none
        else match skipSpace rest with
          | [] => none
          | d :: r =>
            if d = '}' then some (JSON.object [], r)
            else scanMembers fuel (depth + 1) (d :: r) []
      else if c = '"' then
        (scanString fuel rest []).map fun p => (JSON.string p.1, p.2)
      else if c = 'n' then (expect ['u', 'l', 'l'] rest).map fun r => (JSON.null, r)
      else if c = 't' then (expect ['r', 'u', 'e'] rest).map fun r => (JSON.bool true, r)
      else if c = 'f' then
        (expect ['a', 'l', 's', 'e'] rest).map fun r => (JSON.bool false, r)
      else if c = '-' || isDigit c then (scanNumber (c :: rest)).map fun r => (JSON.number, r)
      else none
/-- The elements of an array after the first one was seen to exist: a value, then a comma
and more elements, or the closing bracket. -/
def scanElems : Nat → Nat → List Char → List JSON → Option (JSON × List Char)
  | 0, _, _, _ => none
  | fuel + 1, depth, cs, acc =>
    match scanValue fuel depth cs with
    | none => none
    | some (v, r) =>
      match skipSpace r with
      | [] => none
      | d :: r1 =>
        if d = ',' then scanElems fuel depth r1 (v :: acc)
        else if d = ']' then some (JSON.array (v :: acc).reverse, r1)
        else none
/-- The members of an object: a string, a colon, a value, then a comma and more members,
or the closing brace. -/
def scanMembers : Nat → Nat → List Char → List (String × JSON) → Option (JSON × List Char)
  | 0, _, _, _ => none
  | fuel + 1, depth, cs, acc =>
    match skipSpace cs with
    | [] => none
    | q :: r =>
      if q = '"' then
        match scanString fuel r [] with
        | none => none
        | some (name, r1) =>
          match skipSpace r1 with
          | [] => none
          | col :: r2 =>
            if col = ':' then
              match scanValue fuel depth r2 with
              | none => none
              | some (v, r3) =>
                match skipSpace r3 with
                | [] => none
                | d :: r4 =>
                  if d = ',' then scanMembers fuel depth r4 ((name, v) :: acc)
                  else if d = '}' then some (JSON.object ((name, v) :: acc).reverse, r4)
                  else none
            else none
      else none
end

/-- The syntax check of `json.Unmarshal` (`checkValid`) together with the delimiting of the
value: the input must be exactly one JSON value between optional white space.  Every
call of the scanning functions that follows another has consumed a character within two
steps, so twice the length of the input is enough fuel. -/
def scan (data : String) : Option JSON :=
  match scanValue (2 * data.data.length + 2) 0 data.data with
  | none => none
  | some (v, rest) => if skipSpace rest = [] then some v else none

/-! ## `encoding/json`: decoding into `rawKeystore` -/

/-- Case folding of a rune in a member name (`foldName`): ASCII letters fold to upper case,
and the two runes outside ASCII whose fold set contains an ASCII letter, the Kelvin sign
and the long s, fold to `K` and `S`.  Other runes fold among themselves and never match
the ASCII field names used here. -/
def foldRune (c : Char) : Char :=
  if 'a' ≤ c && c ≤ 'z' then Char.ofNat (c.toNat - 32)
  else if c = Char.ofNat 0x212A then 'K'
  else if c = Char.ofNat 0x17F then 'S'
  else c

/-- A member name selects the struct field tagged `field` when it equals the tag or
matches it case-insensitively. -/
def nameMatches (field name : String) : Bool :=
  name = field || name.data.map foldRune = field.data.map foldRune

/-- Decoding a JSON value into a string field holding `cur`: a string is stored, `null`
has no effect, anything else is an `UnmarshalTypeError`. -/
def decodeString (cur : String) : JSON → Except DecodeError String
  | JSON.string s => Except.ok s
  | JSON.null => Except.ok cur
  | _ => Except.error DecodeError.UnmarshalTypeError

/-- One member of an object decoded into a `JSONKey`: the exported fields are tried by
their tags `e`, `kid`, `alg`, `n`; members of other names are skipped. -/
def decodeKeyMember (k : JSONKey) (m : String × JSON) : Except DecodeError JSONKey :=
  if nameMatches "e" m.1 then
    (decodeString k.Exponent m.2).map fun s => { k with Exponent := s }
  else if nameMatches "kid" m.1 then
    (decodeString k.ID m.2).map fun s => { k with ID := s }
  else if nameMatches "alg" m.1 then
    (decodeString k.Alg m.2).map fun s => { k with Alg := s }
  else if nameMatches "n" m.1 then
    (decodeString k.Modulus m.2).map fun s => { k with Modulus := s }
  else Except.ok k

/-- The members of an object decoded in document order into a `JSONKey`. -/
def decodeKeyMembers (k : JSONKey) : List (String × JSON) → Except DecodeError JSONKey
  | [] => Except.ok k
  | m :: ms => (decodeKeyMember k m).bind fun k1 => decodeKeyMembers k1 ms

/-- Decoding a JSON value into a `JSONKey` holding `cur`: an object sets the fields its
members name, `null` has no effect, anything else is an `UnmarshalTypeError`. -/
def decodeJSONKey (cur : JSONKey) : JSON → Except DecodeError JSONKey
  | JSON.object members => decodeKeyMembers cur members
  | JSON.null => Except.ok cur
  | _ => Except.error DecodeError.UnmarshalTypeError

/-- The elements of an array decoded into the slots of a slice: element `i` is decoded
into slot `i` of the backing array when the slot exists, and into a zero value
otherwise. -/
def decodeElems : List JSONKey → List JSON → Except DecodeError (List JSONKey)
  | _, [] => Except.ok []
  | slots, v :: vs =>
    (decodeJSONKey (slots.headD JSONKey.zero) v).bind fun k =>
      (decodeElems slots.tail vs).map fun ks => k :: ks

/-- The state of the slice `Keys` while decoding: the slots of its backing array that were
ever written, and its length. -/
structure SliceState where
  slots : List JSONKey
  len : Nat

/-- Decoding a JSON value into the slice `Keys`: `null` sets the nil slice, an empty array
a fresh empty slice, a non-empty array decodes element by element into the slots and
sets the length, anything else is an `UnmarshalTypeError`. -/
def decodeSlice (st : SliceState) : JSON → Except DecodeError SliceState
  | JSON.null => Except.ok ⟨[], 0⟩
  | JSON.array [] => Except.ok ⟨[], 0⟩
  | JSON.array (v :: vs) =>
    (decodeElems st.slots (v :: vs)).map fun ks =>
      ⟨ks ++ st.slots.drop (v :: vs).length, (v :: vs).length⟩
  | _ => Except.error DecodeError.UnmarshalTypeError

/-- The members of the top-level object decoded in document order: a member named `keys`
is decoded into the slice, members of other names are skipped. -/
def decodeTopMembers (st : SliceState) : List (String × JSON) → Except DecodeError SliceState
  | [] => Except.ok st
  | m :: ms =>
    if nameMatches "keys" m.1 then
      (decodeSlice st m.2).bind fun st1 => decodeTopMembers st1 ms
    else decodeTopMembers st ms

/-- Decoding a JSON value into a zero `rawKeystore`. -/
def decodeRawKeystore : JSON → Except DecodeError rawKeystore
  | JSON.object members =>
    (decodeTopMembers ⟨[], 0⟩ members).map fun st => ⟨st.slots.take st.len⟩
  | JSON.null => Except.ok ⟨[]⟩
  | _ => Except.error DecodeError.UnmarshalTypeError

/-- The call `json.Unmarshal(keystoreBytes, &rawKS)` on a zero `rawKS`: a syntax error when
the input is not one JSON value, else the decoded struct or the type error. -/
def Unmarshal (data : String) : Except DecodeError rawKeystore :=
  match scan data with
  | none => Except.error DecodeError.SyntaxError
  | some v => decodeRawKeystore v

/-! ## Heap and Go maps -/

/-- The heap: the `JSONKey` variables that are reachable through a pointer, numbered by
their address. -/
abbrev Heap := List JSONKey

/-- A value of type `*JSONKey`: `none` is the nil pointer, `some a` the address of cell
`a`. -/
abbrev Ptr := Option Nat

/-- The entries of a non-nil `map[string]*JSONKey`, one entry per key. -/
abbrev Entries := List (String × Ptr)

/-- Keystore represents a JWKS: a `map[string]*JSONKey`, `none` being the nil map. -/
abbrev Keystore := Option Entries

/-- The map index expression `v, ok := m[k]` on the entries: `none` when `ok` is false. -/
def Entries.index : Entries → String → Option Ptr
  | [], _ => none
  | (k1, v1) :: m, k => if k1 = k then some v1 else Entries.index m k

/-- The map assignment `m[k] = v`: the entry for `k` is replaced when there is one, and
added otherwise. -/
def Entries.assign : Entries → String → Ptr → Entries
  | [], k, v => [(k, v)]
  | (k1, v1) :: m, k, v =>
    if k1 = k then (k, v) :: m else (k1, v1) :: Entries.assign m k v

/-- The index expression `v, ok := k[kid]` on a keystore; indexing the nil map finds
nothing. -/
def Keystore.index (k : Keystore) (kid : String) : Option Ptr :=
  match k with
  | none => none
  | some m => m.index kid

/-- The built-in `len` on a keystore. -/
def Keystore.len (k : Keystore) : Nat :=
  match k with
  | none => 0
  | some m => m.length

/-- Reading through a pointer: `none` for the nil pointer (and for an address that names
no cell, which no Go program can produce). -/
def deref (heap : Heap) (p : Ptr) : Option JSONKey :=
  match p with
  | none => none
  | some a => heap[a]?

/-! ## `New` -/

/-- The two meanings of the variable of a `for ... := range` statement.  Up to Go 1.21,
and in every module whose `go.mod` does not ask for `go 1.22` or later, the variable is
declared once for the whole loop and assigned on every iteration (`perLoop`).  From Go
1.22 on each iteration has a variable of its own (`perIteration`).  Which of the two
applies is decided by the `go` line of the `go.mod` of the module, so both are
modelled. -/
inductive RangeSemantics where
  | perLoop
  | perIteration
deriving DecidableEq, Repr

/-- The loop of `New` when `key` is one variable, living in cell `a`: every iteration
assigns the next record to the cell and stores the address of the cell under the
record's ID. -/
def rangePerLoop (a : Nat) : List JSONKey → Entries × Heap → Entries × Heap
  | [], st => st
  | key :: rest, st =>
    rangePerLoop a rest (st.1.assign key.ID (some a), st.2.set a key)

/-- The loop of `New` when every iteration has its own `key`: every iteration puts the
record into a new cell and stores the address of that cell under the record's ID. -/
def rangePerIteration : List JSONKey → Entries × Heap → Entries × Heap
  | [], st => st
  | key :: rest, st =>
    rangePerIteration rest (st.1.assign key.ID (some st.2.length), st.2 ++ [key])

/-- New creates a new JWKS from a raw JSON message.  The result is the pair
`(keystore, err)` and the heap after the call. -/
def New (sem : RangeSemantics) (keystoreBytes : String) (heap : Heap) :
    (Keystore × Option Error) × Heap :=
  -- Turn the raw JWKS into the correct Go type.
  match Unmarshal keystoreBytes with
  | Except.error err => ((none, some (Error.Unmarshal err)), heap)
  | Except.ok rawKS =>
    -- Iterate through the keys in the raw keystore. Add them to the JWKS.
    let st := match sem with
      | RangeSemantics.perLoop =>
        rangePerLoop heap.length rawKS.Keys ([], heap ++ [JSONKey.zero])
      | RangeSemantics.perIteration => rangePerIteration rawKS.Keys ([], heap)
    ((some st.1, none), st.2)

/-! ## `Keystore.RSA` -/

/-- What a call of `Keystore.RSA` does: it returns `(publicKey, err)`, where `none` stands
for nil, or it panics on a nil pointer dereference. -/
inductive Outcome where
  | panic
  | ret (publicKey : Option PublicKey) (err : Option Error)
deriving DecidableEq, Repr

/-- The shape of the method `(*JSONKey).RSA`: from the entry it is called on to its two
results and the entry after the call. -/
abbrev KeyMethod := JSONKey → (Option PublicKey × Option Error) × JSONKey

/-- RSA retrieves an RSA public key from the JWKS.  `method` is the method `key.RSA` the
function ends with; the result is the outcome and the heap after the call. -/
def Keystore.RSA (method : KeyMethod) (k : Keystore) (kid : String) (heap : Heap) :
    Outcome × Heap :=
  -- Get the JSONKey from the JWKS.
  match k.index kid with
  | none => (Outcome.ret none (some Error.ErrKIDNotFound), heap)
  | some p =>
    match p, deref heap p with
    | some a, some key =>
      -- Confirm the key is an RSA key.
      if key.Alg ≠ RS256 then (Outcome.ret none (some Error.ErrNotExpectedKeyType), heap)
      else
        -- Transform the key from JSON to an RSA key.
        let r := method key
        (Outcome.ret r.1.1 r.1.2, heap.set a r.2)
    | _, _ => (Outcome.panic, heap)

/-! ## `JSONKey.RSA` -/

/-- Value of a character of the base64url alphabet. -/
def base64urlValue (c : Char) : Option Nat :=
  if 'A' ≤ c && c ≤ 'Z' then some (c.toNat - 'A'.toNat)
  else if 'a' ≤ c && c ≤ 'z' then some (c.toNat - 'a'.toNat + 26)
  else if '0' ≤ c && c ≤ '9' then some (c.toNat - '0'.toNat + 52)
  else if c = '-' then some 62
  else if c = '_' then some 63
  else none

/-- The values of all characters, or nothing when one is outside the alphabet. -/
def base64urlValues : List Char → Option (List Nat)
  | [] => some []
  | c :: cs => (base64urlValue c).bind fun v => (base64urlValues cs).map fun vs => v :: vs

/-- Groups of four 6-bit values give three bytes; a last group of three gives two bytes,
one of two gives one byte, and a last group of one is malformed. -/
def base64urlBytes : List Nat → Option (List Nat)
  | a :: b :: c :: d :: rest =>
    (base64urlBytes rest).map fun bs =>
      (a * 4 + b / 16) :: ((b % 16) * 16 + c / 4) :: ((c % 4) * 64 + d) :: bs
  | [a, b, c] => some [a * 4 + b / 16, (b % 16) * 16 + c / 4]
  | [a, b] => some [a * 4 + b / 16]
  | [_] => none
  | [] => some []

/-- Modelled from the spec: the decoding of base64url without padding that the missing
method `JSONKey.RSA` applies to `n` and `e` (spec 4.2, step 4a). -/
def base64urlDecode (s : String) : Option (List Nat) :=
  (base64urlValues s.data).bind base64urlBytes

/-- Modelled from the spec: a byte sequence read as a big-endian unsigned integer, the
whole sequence being the magnitude (spec 4.2, step 4b). -/
def bigEndian (bytes : List Nat) : Nat :=
  bytes.foldl (fun acc b => acc * 256 + b) 0

/-- The width in bits of the Go type `int` on the 64-bit platforms (on the 32-bit ones it
is 32, and the range is smaller still). -/
def intSize : Nat := 64

/-- Modelled from the spec: the conversion of the decoded exponent to the `int` that
`rsa.PublicKey.E` is.  Spec 4.2, step 4c allows no size validation, so the conversion
cannot fail: it is the conversion of Go, which keeps the low `intSize` bits and reads
them as a signed number. -/
def goInt (x : Nat) : Int :=
  if x % 2 ^ intSize < 2 ^ (intSize - 1) then ((x % 2 ^ intSize : Nat) : Int)
  else ((x % 2 ^ intSize : Nat) : Int) - ((2 ^ intSize : Nat) : Int)

/-- Modelled from the spec: the method `(*JSONKey).RSA`, whose file is missing from the
source tree (spec 4.2, steps 3 to 6).  A memoized key is returned as it is.  Otherwise
`n` and `e` are decoded; a decode failure is `MalformedKeyMaterial` and leaves the entry
as it was; on success the key is built from the two integers without any further check,
the exponent converted to `int`, memoized on the entry and returned. -/
def JSONKey.RSA : KeyMethod := fun j =>
  match j.precomputed with
  | some pk => ((some pk, none), j)
  | none =>
    match base64urlDecode j.Modulus, base64urlDecode j.Exponent with
    | some n, some e =>
      let pk : PublicKey := ⟨bigEndian n, goInt (bigEndian e)⟩
      ((some pk, none), { j with precomputed := some pk })
    | _, _ => ((none, some Error.MalformedKeyMaterial), j)

/-! ## Auxiliary definitions and the documents used as concrete inputs -/

/-- The entry stored under `kid`: the cell the pointer found by the index expression
points to. -/
def Keystore.entry (k : Keystore) (heap : Heap) (kid : String) : Option JSONKey :=
  (k.index kid).bind (deref heap)

/-- The pointers held by the entries are addresses of cells of the heap. -/
def Entries.valid (m : Entries) (heap : Heap) : Prop :=
  ∀ k p, m.index k = some p → ∃ a, p = some a ∧ a < heap.length

/-- The order in which a map that starts with the keys `ks` comes to hold its keys when
`k` is assigned to. -/
def addKey (ks : List String) (k : String) : List String :=
  if k ∈ ks then ks else ks ++ [k]


/-- The document of the specification with the single key `k1`. -/
def docK1 : String :=
  "\x7b\"keys\":[\x7b\"kid\":\"k1\",\"alg\":\"RS256\",\"n\":\"AQAB\",\"e\":\"AQAB\"\x7d]\x7d"

/-- A document with two keys of distinct IDs: an RS256 key `k1`, then an ES256 key
`k2`. -/
def docK1K2 : String :=
  "\x7b\"keys\":[\x7b\"kid\":\"k1\",\"alg\":\"RS256\",\"n\":\"AQAB\",\"e\":\"AQAB\"\x7d," ++
    "\x7b\"kid\":\"k2\",\"alg\":\"ES256\",\"n\":\"AA\",\"e\":\"AQ\"\x7d]\x7d"

/-- A document in which the ID `a` occurs twice and is followed by a key with ID `b`. -/
def docDup : String :=
  "\x7b\"keys\":[\x7b\"kid\":\"a\",\"alg\":\"RS256\",\"n\":\"AQAB\",\"e\":\"AQAB\"\x7d," ++
    "\x7b\"kid\":\"a\",\"alg\":\"RS256\",\"n\":\"AQAC\",\"e\":\"AQAB\"\x7d," ++
    "\x7b\"kid\":\"b\",\"alg\":\"RS256\",\"n\":\"AQAD\",\"e\":\"AQAB\"\x7d]\x7d"

/-- A document whose records are all defective: an unsupported algorithm, text that is
not base64url, and a record without any field. -/
def docDefective : String :=
  "\x7b\"keys\":[\x7b\"kid\":\"x\",\"alg\":\"HS256\",\"n\":\"AQAB\",\"e\":\"AQAB\"\x7d," ++
    "\x7b\"kid\":\"y\",\"alg\":\"RS256\",\"n\":\"*?*\",\"e\":\"=\"\x7d,\x7b\x7d]\x7d"

/-! ## Auxiliary definitions for the claims about `JSONKey.RSA` -/

/-- The character of a 6-bit value in the base64url alphabet. -/
def base64urlChar (v : Nat) : Char :=
  if v < 26 then Char.ofNat ('A'.toNat + v)
  else if v < 52 then Char.ofNat ('a'.toNat + (v - 26))
  else if v < 62 then Char.ofNat ('0'.toNat + (v - 52))
  else if v = 62 then '-'
  else '_'

/-- The 6-bit values of a byte sequence: three bytes give four values, two last bytes
give three values, one last byte gives two values; no padding is added. -/
def base64urlSextets : List Nat → List Nat
  | a :: b :: c :: rest =>
    (a / 4) :: ((a % 4) * 16 + b / 16) :: ((b % 16) * 4 + c / 64) :: (c % 64)
      :: base64urlSextets rest
  | [a, b] => [a / 4, (a % 4) * 16 + b / 16, (b % 16) * 4]
  | [a] => [a / 4, (a % 4) * 16]
  | [] => []

/-- The unpadded base64url encoding of a byte sequence, the encoding the specification
names for `n` and `e`. -/
def base64urlEncode (bytes : List Nat) : String :=
  String.mk ((base64urlSextets bytes).map base64urlChar)

/-- The key that decoding the fields `n` and `e` of an entry yields, if both decode: the
two steps 4a and 4b of `JSONKey.RSA` on their own. -/
def JSONKey.decode (j : JSONKey) : Option PublicKey :=
  match base64urlDecode j.Modulus, base64urlDecode j.Exponent with
  | some n, some e => some ⟨bigEndian n, goInt (bigEndian e)⟩
  | _, _ => none

/-- The memoized slot of an entry is consistent: it is empty, or it holds the key that
the fields of the entry decode to.  The slot is unexported, empty after decoding a
document, and written by `JSONKey.RSA` only. -/
def JSONKey.memoConsistent (j : JSONKey) : Prop :=
  j.precomputed = none ∨ j.precomputed = j.decode

/-- Every cell of the heap has a consistent memoized slot. -/
def Heap.memoConsistent (heap : Heap) : Prop :=
  ∀ j ∈ heap, j.memoConsistent

/-- A sequence of calls of `Keystore.RSA`, each on a keystore and a kid, run one after the
other on the heap; the result is the heap after the last call. -/
def runCalls : List (Keystore × String) → Heap → Heap
  | [], heap => heap
  | c :: cs, heap => runCalls cs (Keystore.RSA JSONKey.RSA c.1 c.2 heap).2

/-- The memoized slot of the cell at address `a`, `none` when it is empty (or when there
is no such cell). -/
def slot (heap : Heap) (a : Nat) : Option PublicKey :=
  (heap[a]?).bind JSONKey.precomputed

/-- A document whose single record is an RS256 record without `n` and without `e`. -/
def docNoMaterial : String :=
  "\x7b\"keys\":[\x7b\"kid\":\"z\",\"alg\":\"RS256\"\x7d]\x7d"

/-! ## Map lemmas -/

theorem Entries.index_assign (m : Entries) (k : String) (v : Ptr) (k2 : String) :
    (m.assign k v).index k2 = if k = k2 then some v else m.index k2 := by
  induction m with
  | nil => simp [Entries.assign, Entries.index]
  | cons kv m ih =>
    obtain ⟨k1, v1⟩ := kv
    by_cases h1 : k1 = k
    · subst h1
      by_cases h2 : k1 = k2 <;> simp [Entries.assign, Entries.index, h2]
    · by_cases h2 : k1 = k2
      · subst h2
        have h3 : ¬ k = k1 := fun h => h1 h.symm
        simp [Entries.assign, Entries.index, h1, h3]
      · simp [Entries.assign, Entries.index, h1, h2, ih]

theorem Entries.keys_assign (m : Entries) (k : String) (v : Ptr) :
    (m.assign k v).map Prod.fst = addKey (m.map Prod.fst) k := by
  induction m with
  | nil => simp [Entries.assign, addKey]
  | cons kv m ih =>
    obtain ⟨k1, v1⟩ := kv
    by_cases h1 : k1 = k
    · subst h1
      simp [Entries.assign, addKey]
    · have h3 : ¬ k = k1 := fun h => h1 h.symm
      simp only [Entries.assign, if_neg h1, List.map_cons, ih, addKey, List.mem_cons, h3,
        false_or]
      split <;> simp

theorem Entries.index_eq_none_iff (m : Entries) (k : String) :
    m.index k = none ↔ k ∉ m.map Prod.fst := by
  induction m with
  | nil => simp [Entries.index]
  | cons kv m ih =>
    obtain ⟨k1, v1⟩ := kv
    by_cases h1 : k1 = k
    · subst h1
      simp [Entries.index]
    · have h3 : ¬ k = k1 := fun h => h1 h.symm
      simp [Entries.index, h1, h3, ih]

theorem mem_foldl_addKey (ids : List String) (ks : List String) (k : String) :
    k ∈ ids.foldl addKey ks ↔ k ∈ ks ∨ k ∈ ids := by
  induction ids generalizing ks with
  | nil => simp
  | cons i ids ih =>
    rw [List.foldl_cons, ih]
    unfold addKey
    by_cases h : i ∈ ks
    · simp only [if_pos h, List.mem_cons]
      constructor
      · rintro (h1 | h1)
        · exact Or.inl h1
        · exact Or.inr (Or.inr h1)
      · rintro (h1 | h1 | h1)
        · exact Or.inl h1
        · exact Or.inl (h1 ▸ h)
        · exact Or.inr h1
    · simp only [if_neg h, List.mem_append, List.mem_singleton, List.mem_cons]
      tauto

theorem foldl_addKey_nodup (ids : List String) (ks : List String)
    (h : (ks ++ ids).Nodup) : ids.foldl addKey ks = ks ++ ids := by
  induction ids generalizing ks with
  | nil => simp
  | cons i ids ih =>
    have hi : i ∉ ks := by
      intro hmem
      have := List.nodup_append.mp h
      exact this.2.2 hmem (List.mem_cons_self i ids)
    have h2 : ((ks ++ [i]) ++ ids).Nodup := by simpa using h
    rw [List.foldl_cons]
    simp only [addKey, if_neg hi]
    rw [ih _ h2]
    simp

/-! ## The loop of `New` -/

theorem rangePerLoop_keys (a : Nat) (keys : List JSONKey) (st : Entries × Heap) :
    (rangePerLoop a keys st).1.map Prod.fst
      = (keys.map JSONKey.ID).foldl addKey (st.1.map Prod.fst) := by
  induction keys generalizing st with
  | nil => rfl
  | cons key rest ih =>
    simp only [rangePerLoop, List.map_cons, List.foldl_cons]
    rw [ih]
    simp [Entries.keys_assign]

theorem rangePerIteration_keys (keys : List JSONKey) (st : Entries × Heap) :
    (rangePerIteration keys st).1.map Prod.fst
      = (keys.map JSONKey.ID).foldl addKey (st.1.map Prod.fst) := by
  induction keys generalizing st with
  | nil => rfl
  | cons key rest ih =>
    simp only [rangePerIteration, List.map_cons, List.foldl_cons]
    rw [ih]
    simp [Entries.keys_assign]

/-- On a document that decodes, `New` returns a non-nil map and a nil error, and the keys
of the map are the IDs of the records in the order of their first occurrence. -/
theorem New_ok (sem : RangeSemantics) (doc : String) (rawKS : rawKeystore) (heap : Heap)
    (hdec : Unmarshal doc = Except.ok rawKS) :
    ∃ m, (New sem doc heap).1 = (some m, none)
      ∧ m.map Prod.fst = (rawKS.Keys.map JSONKey.ID).foldl addKey [] := by
  cases sem
  · refine ⟨(rangePerLoop heap.length rawKS.Keys ([], heap ++ [JSONKey.zero])).1, ?_, ?_⟩
    · simp [New, hdec]
    · simpa using rangePerLoop_keys heap.length rawKS.Keys ([], heap ++ [JSONKey.zero])
  · refine ⟨(rangePerIteration rawKS.Keys ([], heap)).1, ?_, ?_⟩
    · simp [New, hdec]
    · simpa using rangePerIteration_keys rawKS.Keys ([], heap)

/-- Members none of which is named `keys` leave the slice as it is. -/
theorem decodeTopMembers_no_keys (st : SliceState) (members : List (String × JSON))
    (hnone : ∀ m ∈ members, nameMatches "keys" m.1 = false) :
    decodeTopMembers st members = Except.ok st := by
  induction members with
  | nil => rfl
  | cons m ms ih =>
    have hm : nameMatches "keys" m.1 = false := hnone m (List.mem_cons_self m ms)
    have hms : ∀ x ∈ ms, nameMatches "keys" x.1 = false :=
      fun x hx => hnone x (List.mem_cons_of_mem m hx)
    simp [decodeTopMembers, hm, ih hms]

/-- On a document that decodes into no record at all, `New` returns the empty map. -/
theorem New_no_records (sem : RangeSemantics) (doc : String) (heap : Heap)
    (hdec : Unmarshal doc = Except.ok ⟨[]⟩) :
    (New sem doc heap).1 = (some [], none) := by
  cases sem <;> simp [New, hdec, rangePerLoop, rangePerIteration]

/-! ## What the entries of the keystore hold, for either meaning of the loop variable -/

theorem rangePerLoop_index (a : Nat) (keys : List JSONKey) (st : Entries × Heap)
    (k : String) :
    (rangePerLoop a keys st).1.index k
      = if k ∈ keys.map JSONKey.ID then some (some a) else st.1.index k := by
  induction keys generalizing st with
  | nil => simp [rangePerLoop]
  | cons key rest ih =>
    simp only [rangePerLoop, ih, Entries.index_assign, List.map_cons, List.mem_cons]
    by_cases h1 : k ∈ rest.map JSONKey.ID
    · simp [h1]
    · by_cases h2 : key.ID = k
      · simp [h2]
      · have h3 : ¬ k = key.ID := fun h => h2 h.symm
        simp [h1, h2, h3]

theorem rangePerLoop_heap (a : Nat) (keys : List JSONKey) (st : Entries × Heap) :
    (rangePerLoop a keys st).2
      = match keys.getLast? with
        | none => st.2
        | some last => st.2.set a last := by
  induction keys generalizing st with
  | nil => rfl
  | cons key rest ih =>
    simp only [rangePerLoop, ih]
    cases rest with
    | nil => rfl
    | cons key2 rest2 =>
      rw [List.getLast?_cons_cons, List.getLast?_eq_getLast _ (List.cons_ne_nil key2 rest2)]
      simp [List.set_set]

/-- With one loop variable for the whole loop, every entry of the keystore that `New`
returns is the last record of the document, whatever kid it is stored under. -/
theorem New_perLoop_entry (doc : String) (rawKS : rawKeystore) (heap : Heap)
    (hdec : Unmarshal doc = Except.ok rawKS) (kid : String)
    (hkid : kid ∈ rawKS.Keys.map JSONKey.ID) :
    (New RangeSemantics.perLoop doc heap).1.1.entry (New RangeSemantics.perLoop doc heap).2 kid
      = rawKS.Keys.getLast? := by
  simp only [New, hdec, Keystore.entry, Keystore.index, rangePerLoop_index, if_pos hkid,
    rangePerLoop_heap, Option.some_bind, deref]
  cases hl : rawKS.Keys.getLast? with
  | none =>
    rw [List.getLast?_eq_none_iff] at hl
    rw [hl] at hkid
    simp at hkid
  | some last => simp

theorem rangePerIteration_entry (keys : List JSONKey) (st : Entries × Heap)
    (hvalid : st.1.valid st.2) (k : String) :
    ((rangePerIteration keys st).1.index k).bind (deref (rangePerIteration keys st).2)
      = match keys.reverse.find? (fun r => r.ID = k) with
        | some r => some r
        | none => (st.1.index k).bind (deref st.2) := by
  induction keys generalizing st with
  | nil => simp [rangePerIteration]
  | cons key rest ih =>
    have hvalid2 : (st.1.assign key.ID (some st.2.length)).valid (st.2 ++ [key]) := by
      intro k2 p hp
      rw [Entries.index_assign] at hp
      by_cases h : key.ID = k2
      · rw [if_pos h] at hp
        exact ⟨st.2.length, (Option.some.inj hp).symm, by simp⟩
      · rw [if_neg h] at hp
        obtain ⟨a, ha, hlt⟩ := hvalid k2 p hp
        exact ⟨a, ha, by simp; omega⟩
    simp only [rangePerIteration]
    rw [ih _ hvalid2, List.reverse_cons, List.find?_append]
    cases hfind : List.find? (fun r => decide (r.ID = k)) rest.reverse with
    | some r => simp
    | none =>
      simp only [Option.none_or, Entries.index_assign]
      by_cases h : key.ID = k
      · simp [h, deref]
      · simp only [if_neg h, List.find?_cons, List.find?_nil, decide_eq_true_eq]
        cases hidx : st.1.index k with
        | none => simp [h]
        | some p =>
          obtain ⟨a, ha, hlt⟩ := hvalid k p hidx
          subst ha
          simp [h, deref, List.getElem?_append_left hlt]

/-- With a loop variable of its own for every iteration, the entry stored under a kid is
the last record of the document with that kid, and there is no entry for a kid that no
record has. -/
theorem New_perIteration_entry (doc : String) (rawKS : rawKeystore) (heap : Heap)
    (hdec : Unmarshal doc = Except.ok rawKS) (kid : String) :
    (New RangeSemantics.perIteration doc heap).1.1.entry
        (New RangeSemantics.perIteration doc heap).2 kid
      = rawKS.Keys.reverse.find? (fun r => r.ID = kid) := by
  have hvalid : Entries.valid [] heap := by
    intro k p hp
    simp [Entries.index] at hp
  have h := rangePerIteration_entry rawKS.Keys ([], heap) hvalid kid
  simp only [New, hdec, Keystore.entry, Keystore.index]
  rw [h]
  cases List.find? (fun r => decide (r.ID = kid)) rawKS.Keys.reverse <;> simp [Entries.index]

/-! ## The claims -/

/-- C1: evaluation at the document with the keys `k1` (RS256) and `k2` (ES256), the loop
variable being one variable for the whole loop.  Both map entries hold the address of
that variable, so the entry stored under `k1` is the record of the last iteration: its
ID is `k2`, and `Keystore.RSA` refuses `k1` as not being an RSA key. -/
theorem New_perLoop_aliases_last_record :
    Unmarshal docK1K2
        = Except.ok ⟨[⟨"AQAB", "k1", "RS256", "AQAB", none⟩, ⟨"AQ", "k2", "ES256", "AA", none⟩]⟩
      ∧ New RangeSemantics.perLoop docK1K2 []
        = ((some [("k1", some 0), ("k2", some 0)], none), [⟨"AQ", "k2", "ES256", "AA", none⟩])
      ∧ (New RangeSemantics.perLoop docK1K2 []).1.1.entry
            (New RangeSemantics.perLoop docK1K2 []).2 "k1"
        = some ⟨"AQ", "k2", "ES256", "AA", none⟩
      ∧ (Keystore.RSA JSONKey.RSA (New RangeSemantics.perLoop docK1K2 []).1.1 "k1"
            (New RangeSemantics.perLoop docK1K2 []).2).1
        = Outcome.ret none (some Error.ErrNotExpectedKeyType) := by
  refine ⟨rfl, ?_, ?_, ?_⟩ <;> decide

/-- C2: for every keystore (the nil map included) and every kid that is not a key of the
map, `Keystore.RSA` returns a nil public key and exactly `ErrKIDNotFound`; this holds
whatever the method `key.RSA` is, and the heap is left as it was. -/
theorem Keystore.RSA_unknown_kid (method : KeyMethod) (k : Keystore) (kid : String)
    (heap : Heap) (habsent : k.index kid = none) :
    Keystore.RSA method k kid heap
      = (Outcome.ret none (some Error.ErrKIDNotFound), heap) := by
  simp [Keystore.RSA, habsent]

/-- Witness of C2: a keystore holding `k1` asked for `k9`, and the nil keystore. -/
theorem Keystore.RSA_unknown_kid_witness :
    Keystore.index (some [("k1", some 0)]) "k9" = none
      ∧ Keystore.RSA JSONKey.RSA (some [("k1", some 0)]) "k9"
          [⟨"AQAB", "k1", "RS256", "AQAB", none⟩]
        = (Outcome.ret none (some Error.ErrKIDNotFound),
            [⟨"AQAB", "k1", "RS256", "AQAB", none⟩]) :=
  ⟨by decide, Keystore.RSA_unknown_kid JSONKey.RSA (some [("k1", some 0)]) "k9"
    [⟨"AQAB", "k1", "RS256", "AQAB", none⟩] (by decide)⟩

/-- C3: for every keystore and every kid whose entry has an alg different from `RS256`,
`Keystore.RSA` returns a nil public key and exactly `ErrNotExpectedKeyType`, whatever the
other fields of the entry are (its `n` and `e`, its memoized key); the method `key.RSA`
is not called: the result is the same for every method and the heap is left as it
was. -/
theorem Keystore.RSA_unexpected_alg (method : KeyMethod) (k : Keystore) (kid : String)
    (heap : Heap) (a : Nat) (key : JSONKey)
    (hfound : k.index kid = some (some a)) (hcell : heap[a]? = some key)
    (halg : key.Alg ≠ RS256) :
    Keystore.RSA method k kid heap
      = (Outcome.ret none (some Error.ErrNotExpectedKeyType), heap) := by
  simp [Keystore.RSA, hfound, deref, hcell, halg]

/-- Witness of C3: an ES256 entry with well-formed `n` and `e` and a memoized key. -/
theorem Keystore.RSA_unexpected_alg_witness :
    Keystore.RSA JSONKey.RSA (some [("k2", some 0)]) "k2"
        [⟨"AQAB", "k2", "ES256", "AQAB", some ⟨65537, 65537⟩⟩]
      = (Outcome.ret none (some Error.ErrNotExpectedKeyType),
          [⟨"AQAB", "k2", "ES256", "AQAB", some ⟨65537, 65537⟩⟩]) :=
  Keystore.RSA_unexpected_alg JSONKey.RSA (some [("k2", some 0)]) "k2"
    [⟨"AQAB", "k2", "ES256", "AQAB", some ⟨65537, 65537⟩⟩] 0
    ⟨"AQAB", "k2", "ES256", "AQAB", some ⟨65537, 65537⟩⟩ (by decide) (by decide) (by decide)

set_option maxRecDepth 4000 in
/-- C4: evaluation at the document with the records `a` (n = AQAB), `a` (n = AQAC), `b`
(n = AQAD), the loop variable being one variable for the whole loop.  Looking up `a`
yields the record of the last iteration, the one with ID `b` and n = AQAD, not the last
record with ID `a`; `Keystore.RSA` returns the modulus 65539 of `b` for `a`. -/
theorem New_perLoop_duplicate_kid :
    Unmarshal docDup
        = Except.ok ⟨[⟨"AQAB", "a", "RS256", "AQAB", none⟩, ⟨"AQAB", "a", "RS256", "AQAC", none⟩,
            ⟨"AQAB", "b", "RS256", "AQAD", none⟩]⟩
      ∧ (New RangeSemantics.perLoop docDup []).1.1.entry
            (New RangeSemantics.perLoop docDup []).2 "a"
        = some ⟨"AQAB", "b", "RS256", "AQAD", none⟩
      ∧ (Keystore.RSA JSONKey.RSA (New RangeSemantics.perLoop docDup []).1.1 "a"
            (New RangeSemantics.perLoop docDup []).2).1
        = Outcome.ret (some ⟨65539, 65537⟩) none := by
  refine ⟨by rfl, ?_, ?_⟩ <;> decide

/-- C5: for every document that decodes into N records with pairwise distinct kids, `New`
returns, with a nil error, a non-nil keystore of exactly N entries in which every one of
the N kids is found by the index expression. -/
theorem New_distinct_kids (sem : RangeSemantics) (doc : String) (rawKS : rawKeystore)
    (heap : Heap) (hdec : Unmarshal doc = Except.ok rawKS)
    (hdistinct : (rawKS.Keys.map JSONKey.ID).Nodup) :
    (New sem doc heap).1.2 = none
      ∧ (New sem doc heap).1.1 ≠ none
      ∧ (New sem doc heap).1.1.len = rawKS.Keys.length
      ∧ ∀ key ∈ rawKS.Keys, (New sem doc heap).1.1.index key.ID ≠ none := by
  obtain ⟨m, hnew, hkeys⟩ := New_ok sem doc rawKS heap hdec
  rw [foldl_addKey_nodup _ _ (by simpa using hdistinct)] at hkeys
  simp only [List.nil_append] at hkeys
  rw [hnew]
  refine ⟨rfl, by simp, ?_, ?_⟩
  · have := congrArg List.length hkeys
    simpa [Keystore.len] using this
  · intro key hkey
    show m.index key.ID ≠ none
    rw [Ne, Entries.index_eq_none_iff, hkeys]
    simpa using ⟨key, hkey, rfl⟩

/-- Witness of C5: the document with the two keys `k1` and `k2`. -/
theorem New_distinct_kids_witness :
    (New RangeSemantics.perLoop docK1K2 []).1.2 = none
      ∧ (New RangeSemantics.perLoop docK1K2 []).1.1 ≠ none
      ∧ (New RangeSemantics.perLoop docK1K2 []).1.1.len = 2
      ∧ ∀ key ∈ [(⟨"AQAB", "k1", "RS256", "AQAB", none⟩ : JSONKey),
            ⟨"AQ", "k2", "ES256", "AA", none⟩],
          (New RangeSemantics.perLoop docK1K2 []).1.1.index key.ID ≠ none :=
  New_distinct_kids RangeSemantics.perLoop docK1K2
    ⟨[⟨"AQAB", "k1", "RS256", "AQAB", none⟩, ⟨"AQ", "k2", "ES256", "AA", none⟩]⟩ []
    rfl (by decide)

/-- C6: for every input on which `json.Unmarshal` fails, `New` returns the nil keystore
together with that error, unchanged, and leaves the heap as it was; and on no input at
all does `New` return a keystore other than nil alongside an error. -/
theorem New_decode_error (sem : RangeSemantics) (doc : String) (heap : Heap)
    (err : DecodeError) (hfail : Unmarshal doc = Except.error err) :
    New sem doc heap = ((none, some (Error.Unmarshal err)), heap)
      ∧ ∀ (sem2 : RangeSemantics) (doc2 : String) (heap2 : Heap),
          (New sem2 doc2 heap2).1.2 ≠ none → (New sem2 doc2 heap2).1.1 = none := by
  refine ⟨by simp [New, hfail], ?_⟩
  intro sem2 doc2 heap2
  unfold New
  cases Unmarshal doc2 <;> simp

/-- Witness of C6: the bytes `not json`; the same call on a value that is not an object
and on a `keys` member that is not an array. -/
theorem New_decode_error_witness :
    (Unmarshal "not json" = Except.error DecodeError.SyntaxError
        ∧ New RangeSemantics.perLoop "not json" []
          = ((none, some (Error.Unmarshal DecodeError.SyntaxError)), []))
      ∧ New RangeSemantics.perLoop "[]" []
          = ((none, some (Error.Unmarshal DecodeError.UnmarshalTypeError)), [])
      ∧ New RangeSemantics.perLoop "\x7b\"keys\":5\x7d" []
          = ((none, some (Error.Unmarshal DecodeError.UnmarshalTypeError)), []) :=
  ⟨⟨rfl, (New_decode_error RangeSemantics.perLoop "not json" []
      DecodeError.SyntaxError rfl).1⟩,
    (New_decode_error RangeSemantics.perLoop "[]" []
      DecodeError.UnmarshalTypeError rfl).1,
    (New_decode_error RangeSemantics.perLoop "\x7b\"keys\":5\x7d" []
      DecodeError.UnmarshalTypeError rfl).1⟩

/-- C7, as stated, fails at the input `{}`: `json.Unmarshal` accepts an object without
`keys` and leaves `Keys` nil, so `New` returns an empty non-nil keystore and a nil
error, not a parse error. -/
theorem New_empty_object_no_error :
    Unmarshal "\x7b\x7d" = Except.ok ⟨[]⟩
      ∧ (New RangeSemantics.perLoop "\x7b\x7d" []).1 = (some [], none)
      ∧ ¬ ∃ err, (New RangeSemantics.perLoop "\x7b\x7d" []).1.2 = some err := by
  have hnil : (New RangeSemantics.perLoop "\x7b\x7d" []).1.2 = none := by decide
  refine ⟨rfl, by decide, ?_⟩
  rintro ⟨err, h⟩
  rw [hnil] at h
  exact Option.noConfusion h

/-- C7, amended: for every input that is a JSON object none of whose member names selects
the field `keys`, `New` succeeds: it returns a non-nil keystore without entries and a nil
error. -/
theorem New_object_without_keys (sem : RangeSemantics) (doc : String)
    (members : List (String × JSON)) (heap : Heap)
    (hobj : scan doc = some (JSON.object members))
    (hnone : ∀ m ∈ members, nameMatches "keys" m.1 = false) :
    (New sem doc heap).1 = (some [], none) ∧ (New sem doc heap).1.1.len = 0 := by
  have hdec : Unmarshal doc = Except.ok ⟨[]⟩ := by
    simp [Unmarshal, hobj, decodeRawKeystore, decodeTopMembers_no_keys _ _ hnone, Except.map]
  have h := New_no_records sem doc heap hdec
  exact ⟨h, by rw [h]; rfl⟩

/-- Witness of the amended C7: an object with one member that is not named `keys`. -/
theorem New_object_without_keys_witness :
    scan "\x7b\"kid\":\"k1\"\x7d" = some (JSON.object [("kid", JSON.string "k1")])
      ∧ (New RangeSemantics.perIteration "\x7b\"kid\":\"k1\"\x7d" []).1 = (some [], none)
      ∧ (New RangeSemantics.perIteration "\x7b\"kid\":\"k1\"\x7d" []).1.1.len = 0 :=
  ⟨rfl, New_object_without_keys RangeSemantics.perIteration "\x7b\"kid\":\"k1\"\x7d"
    [("kid", JSON.string "k1")] [] rfl (by decide)⟩

/-- C8: for a document whose keys array is empty, `New` succeeds with a non-nil keystore
of zero entries, and `Keystore.RSA` on it returns a nil key and `ErrKIDNotFound` for
every kid. -/
theorem New_empty_keys (sem : RangeSemantics) (method : KeyMethod) (doc : String)
    (heap : Heap) (hdec : Unmarshal doc = Except.ok ⟨[]⟩) :
    (New sem doc heap).1 = (some [], none)
      ∧ (New sem doc heap).1.1.len = 0
      ∧ ∀ kid, (Keystore.RSA method (New sem doc heap).1.1 kid (New sem doc heap).2).1
          = Outcome.ret none (some Error.ErrKIDNotFound) := by
  have h := New_no_records sem doc heap hdec
  refine ⟨h, by rw [h]; rfl, ?_⟩
  intro kid
  rw [h]
  rfl

/-- Witness of C8: the document whose `keys` member is the empty array. -/
theorem New_empty_keys_witness :
    Unmarshal "\x7b\"keys\":[]\x7d" = Except.ok ⟨[]⟩
      ∧ (New RangeSemantics.perLoop "\x7b\"keys\":[]\x7d" []).1 = (some [], none)
      ∧ (New RangeSemantics.perLoop "\x7b\"keys\":[]\x7d" []).1.1.len = 0
      ∧ ∀ kid, (Keystore.RSA JSONKey.RSA (New RangeSemantics.perLoop "\x7b\"keys\":[]\x7d" []).1.1
            kid (New RangeSemantics.perLoop "\x7b\"keys\":[]\x7d" []).2).1
          = Outcome.ret none (some Error.ErrKIDNotFound) :=
  ⟨rfl, New_empty_keys RangeSemantics.perLoop JSONKey.RSA "\x7b\"keys\":[]\x7d" [] rfl⟩

/-- C10: on the document with the single key `k1` (RS256, n = e = AQAB), whatever the
meaning of the loop variable and whatever the heap before the call, `New` succeeds and
`Keystore.RSA` of `k1` succeeds with modulus and exponent both 65537, the big-endian
integer of the bytes 01 00 01 that AQAB decodes to. -/
theorem New_docK1_RSA (sem : RangeSemantics) (heap : Heap) :
    (New sem docK1 heap).1.2 = none
      ∧ (Keystore.RSA JSONKey.RSA (New sem docK1 heap).1.1 "k1" (New sem docK1 heap).2).1
        = Outcome.ret (some ⟨65537, 65537⟩) none
      ∧ base64urlDecode "AQAB" = some [1, 0, 1]
      ∧ bigEndian [1, 0, 1] = 65537 := by
  have hdec : Unmarshal docK1 = Except.ok ⟨[⟨"AQAB", "k1", "RS256", "AQAB", none⟩]⟩ := rfl
  have hkey : JSONKey.RSA ⟨"AQAB", "k1", "RS256", "AQAB", none⟩
      = ((some ⟨65537, 65537⟩, none),
          ⟨"AQAB", "k1", "RS256", "AQAB", some ⟨65537, 65537⟩⟩) := by decide
  refine ⟨?_, ?_, by decide, by decide⟩
  · cases sem <;> simp [New, hdec]
  · cases sem <;>
      simp [New, hdec, rangePerLoop, rangePerIteration, Entries.assign, Keystore.RSA,
        Keystore.index, Entries.index, deref, hkey, RS256]

/-! ## Base64url and big-endian integers -/

theorem base64urlValue_char : ∀ v, v < 64 → base64urlValue (base64urlChar v) = some v := by
  decide

theorem base64urlValues_map (vs : List Nat) (hvs : ∀ v ∈ vs, v < 64) :
    base64urlValues (vs.map base64urlChar) = some vs := by
  induction vs with
  | nil => rfl
  | cons v vs ih =>
    have hv : v < 64 := hvs v (List.mem_cons_self v vs)
    have htl : ∀ x ∈ vs, x < 64 := fun x hx => hvs x (List.mem_cons_of_mem v hx)
    simp [base64urlValues, base64urlValue_char v hv, ih htl]

theorem base64urlSextets_lt (bytes : List Nat) (hbytes : ∀ b ∈ bytes, b < 256) :
    ∀ v ∈ base64urlSextets bytes, v < 64 := by
  induction bytes using base64urlSextets.induct with
  | case1 a b c rest ih =>
    have ha : a < 256 := hbytes a (by simp)
    have hb : b < 256 := hbytes b (by simp)
    have hc : c < 256 := hbytes c (by simp)
    have hrest : ∀ x ∈ rest, x < 256 := fun x hx => hbytes x (by simp [hx])
    intro v hv
    simp only [base64urlSextets, List.mem_cons] at hv
    rcases hv with rfl | rfl | rfl | rfl | hv
    · omega
    · omega
    · omega
    · omega
    · exact ih hrest v hv
  | case2 a b =>
    have ha : a < 256 := hbytes a (by simp)
    have hb : b < 256 := hbytes b (by simp)
    intro v hv
    simp only [base64urlSextets, List.mem_cons, List.mem_singleton, List.not_mem_nil,
      or_false] at hv
    rcases hv with rfl | rfl | rfl <;> omega
  | case3 a =>
    have ha : a < 256 := hbytes a (by simp)
    intro v hv
    simp only [base64urlSextets, List.mem_cons, List.mem_singleton, List.not_mem_nil,
      or_false] at hv
    rcases hv with rfl | rfl <;> omega
  | case4 => simp [base64urlSextets]

theorem base64urlBytes_sextets (bytes : List Nat) (hbytes : ∀ b ∈ bytes, b < 256) :
    base64urlBytes (base64urlSextets bytes) = some bytes := by
  induction bytes using base64urlSextets.induct with
  | case1 a b c rest ih =>
    have ha : a < 256 := hbytes a (by simp)
    have hb : b < 256 := hbytes b (by simp)
    have hc : c < 256 := hbytes c (by simp)
    have hrest : ∀ x ∈ rest, x < 256 := fun x hx => hbytes x (by simp [hx])
    simp only [base64urlSextets, base64urlBytes, ih hrest, Option.map_some', Option.some.injEq,
      List.cons.injEq, and_true]
    refine ⟨?_, ?_, ?_⟩ <;> omega
  | case2 a b =>
    have ha : a < 256 := hbytes a (by simp)
    have hb : b < 256 := hbytes b (by simp)
    simp only [base64urlSextets, base64urlBytes, Option.some.injEq, List.cons.injEq, and_true]
    refine ⟨?_, ?_⟩ <;> omega
  | case3 a =>
    have ha : a < 256 := hbytes a (by simp)
    simp only [base64urlSextets, base64urlBytes, Option.some.injEq, List.cons.injEq, and_true]
    omega
  | case4 => rfl

/-- Decoding undoes encoding, for every sequence of bytes. -/
theorem base64urlDecode_encode (bytes : List Nat) (hbytes : ∀ b ∈ bytes, b < 256) :
    base64urlDecode (base64urlEncode bytes) = some bytes := by
  simp [base64urlDecode, base64urlEncode,
    base64urlValues_map _ (base64urlSextets_lt bytes hbytes),
    base64urlBytes_sextets bytes hbytes]

/-- Leading zero bytes do not change the integer. -/
theorem bigEndian_replicate_zero (z : Nat) (bytes : List Nat) :
    bigEndian (List.replicate z 0 ++ bytes) = bigEndian bytes := by
  induction z with
  | zero => simp
  | succ z ih =>
    have h : bigEndian (0 :: (List.replicate z 0 ++ bytes))
        = bigEndian (List.replicate z 0 ++ bytes) := by
      simp [bigEndian]
    rw [List.replicate_succ, List.cons_append, h, ih]

/-- Every natural number is the integer of a sequence of bytes: of its digits in base 256,
most significant first. -/
theorem bigEndian_digits (m : Nat) :
    (∀ b ∈ (Nat.digits 256 m).reverse, b < 256)
      ∧ bigEndian (Nat.digits 256 m).reverse = m := by
  constructor
  · intro b hb
    exact Nat.digits_lt_base (by norm_num) (List.mem_reverse.mp hb)
  · have h := Nat.ofDigits_digits 256 m
    rw [Nat.ofDigits_eq_foldr] at h
    rw [bigEndian, List.foldl_reverse]
    simpa [Nat.mul_comm, Nat.add_comm] using h


/-- An integer below 2^63 is converted to itself. -/
theorem goInt_of_lt (x : Nat) (h : x < 2 ^ 63) : goInt x = (x : Int) := by
  have h64 : x % 2 ^ 64 = x := Nat.mod_eq_of_lt (by omega)
  have h63 : x < 2 ^ (64 - 1) := h
  unfold goInt intSize
  rw [h64, if_pos h63]

/-- Whatever is converted, the result is a value of a 64-bit `int`. -/
theorem goInt_range (x : Nat) : -(2 ^ 63 : Int) ≤ goInt x ∧ goInt x < 2 ^ 63 := by
  have hlt : x % 2 ^ 64 < 2 ^ 64 := Nat.mod_lt x (by norm_num)
  unfold goInt intSize
  split
  · constructor <;> omega
  · constructor <;> (push_cast; omega)

/-! ## `JSONKey.RSA` and `Keystore.RSA` on one entry -/

/-- The method `JSONKey.RSA` in terms of `JSONKey.decode`. -/
theorem JSONKey.RSA_eq (j : JSONKey) :
    JSONKey.RSA j
      = match j.precomputed with
        | some pk => ((some pk, none), j)
        | none =>
          match j.decode with
          | some pk => ((some pk, none), { j with precomputed := some pk })
          | none => ((none, some Error.MalformedKeyMaterial), j) := by
  unfold JSONKey.RSA JSONKey.decode
  cases j.precomputed with
  | some pk => rfl
  | none =>
    cases base64urlDecode j.Modulus with
    | none => rfl
    | some n =>
      cases base64urlDecode j.Exponent with
      | none => rfl
      | some e => rfl

/-- Writing back the content of a cell leaves the heap as it was. -/
theorem set_cell_self (heap : Heap) (a : Nat) (key : JSONKey) (hcell : heap[a]? = some key) :
    heap.set a key = heap := by
  apply List.ext_getElem?
  intro i
  rw [List.getElem?_set]
  by_cases h : a = i
  · subst h
    have hlt : a < heap.length := by
      by_contra hge
      rw [List.getElem?_eq_none (by omega)] at hcell
      exact Option.noConfusion hcell
    simp [hlt, hcell]
  · simp [h]

/-- The call `Keystore.RSA` on a kid whose entry is an RS256 entry is the call of the
method on that entry. -/
theorem Keystore.RSA_resolve (method : KeyMethod) (k : Keystore) (kid : String) (heap : Heap)
    (a : Nat) (key : JSONKey) (hfound : k.index kid = some (some a))
    (hcell : heap[a]? = some key) (halg : key.Alg = RS256) :
    Keystore.RSA method k kid heap
      = (Outcome.ret (method key).1.1 (method key).1.2, heap.set a (method key).2) := by
  simp [Keystore.RSA, hfound, deref, hcell, halg]

/-- An entry whose fields decode resolves to the decoded key, whether the key is memoized
already or not. -/
theorem JSONKey.RSA_of_decode (j : JSONKey) (pk : PublicKey) (hmemo : j.memoConsistent)
    (hdec : j.decode = some pk) : (JSONKey.RSA j).1 = (some pk, none) := by
  rw [JSONKey.RSA_eq]
  rcases hmemo with h | h
  · rw [h, hdec]
  · rw [h, hdec]

/-- An entry whose fields do not decode fails with `MalformedKeyMaterial` and stays as it
is. -/
theorem JSONKey.RSA_of_decode_none (j : JSONKey) (hmemo : j.memoConsistent)
    (hdec : j.decode = none) :
    JSONKey.RSA j = ((none, some Error.MalformedKeyMaterial), j) := by
  have hnone : j.precomputed = none := by
    rcases hmemo with h | h
    · exact h
    · rw [h, hdec]
  rw [JSONKey.RSA_eq, hnone, hdec]

/-- The entry after the method: the same entry, or the same entry with its empty slot
filled by the key the method returned. -/
theorem JSONKey.RSA_entry (j : JSONKey) :
    (JSONKey.RSA j).2 = j
      ∨ (j.precomputed = none ∧ ∃ pk, (JSONKey.RSA j).1 = (some pk, none)
          ∧ (JSONKey.RSA j).2 = { j with precomputed := some pk }) := by
  rw [JSONKey.RSA_eq]
  cases hp : j.precomputed with
  | some pk => exact Or.inl rfl
  | none =>
    cases hd : j.decode with
    | none => exact Or.inl rfl
    | some pk => exact Or.inr ⟨rfl, pk, rfl, rfl⟩

/-- A call of the method that returns an error, or no key, leaves the entry as it is. -/
theorem JSONKey.method_failure (j : JSONKey) (h : ∀ pk, (JSONKey.RSA j).1 ≠ (some pk, none)) :
    (JSONKey.RSA j).2 = j := by
  rcases JSONKey.RSA_entry j with h1 | ⟨-, pk, hpk, -⟩
  · exact h1
  · exact absurd hpk (h pk)

/-- A call of the method that returns a key leaves that key in the slot of the entry. -/
theorem JSONKey.method_success (j : JSONKey) (pk : PublicKey)
    (h : (JSONKey.RSA j).1 = (some pk, none)) :
    (JSONKey.RSA j).2.precomputed = some pk
      ∧ (JSONKey.RSA j).2.Alg = j.Alg
      ∧ (j.precomputed = none ∨ j.precomputed = some pk) := by
  rw [JSONKey.RSA_eq] at h ⊢
  cases hp : j.precomputed with
  | some pk1 =>
    rw [hp] at h
    simp only [Prod.mk.injEq, Option.some.injEq, and_true] at h
    subst h
    simp [hp]
  | none =>
    rw [hp] at h
    cases hd : j.decode with
    | none =>
      rw [hd] at h
      simp at h
    | some pk1 =>
      rw [hd] at h
      simp only [Prod.mk.injEq, Option.some.injEq, and_true] at h
      subst h
      simp

/-- What a call of `Keystore.RSA` that does not find an RS256 entry does: the heap stays
as it is and no key is returned. -/
theorem Keystore.RSA_cases (k : Keystore) (kid : String) (heap : Heap) :
    ((Keystore.RSA JSONKey.RSA k kid heap).2 = heap
        ∧ ∀ pk, (Keystore.RSA JSONKey.RSA k kid heap).1 ≠ Outcome.ret (some pk) none)
      ∨ ∃ a key, k.index kid = some (some a) ∧ heap[a]? = some key ∧ key.Alg = RS256 := by
  cases hidx : k.index kid with
  | none => exact Or.inl ⟨by simp [Keystore.RSA, hidx], by simp [Keystore.RSA, hidx]⟩
  | some p =>
    cases p with
    | none => exact Or.inl ⟨by simp [Keystore.RSA, hidx], by simp [Keystore.RSA, hidx]⟩
    | some a =>
      cases hcell : heap[a]? with
      | none =>
        exact Or.inl ⟨by simp [Keystore.RSA, hidx, deref, hcell],
          by simp [Keystore.RSA, hidx, deref, hcell]⟩
      | some key =>
        by_cases halg : key.Alg = RS256
        · exact Or.inr ⟨a, key, rfl, hcell, halg⟩
        · exact Or.inl ⟨by simp [Keystore.RSA, hidx, deref, hcell, halg],
            by simp [Keystore.RSA, hidx, deref, hcell, halg]⟩


/-- An entry that holds a memoized key resolves to it, and the heap stays as it is. -/
theorem Keystore.RSA_memoized (k : Keystore) (kid : String) (heap : Heap) (a : Nat)
    (key : JSONKey) (pk : PublicKey) (hfound : k.index kid = some (some a))
    (hcell : heap[a]? = some key) (halg : key.Alg = RS256)
    (hslot : key.precomputed = some pk) :
    Keystore.RSA JSONKey.RSA k kid heap = (Outcome.ret (some pk) none, heap) := by
  have hkey : JSONKey.RSA key = ((some pk, none), key) := by
    rw [JSONKey.RSA_eq, hslot]
  rw [Keystore.RSA_resolve JSONKey.RSA k kid heap a key hfound hcell halg, hkey]
  simp [set_cell_self heap a key hcell]

/-- A call of `Keystore.RSA` that returns no key leaves the heap as it is. -/
theorem Keystore.RSA_failure (k : Keystore) (kid : String) (heap : Heap)
    (hfail : ∀ pk, (Keystore.RSA JSONKey.RSA k kid heap).1 ≠ Outcome.ret (some pk) none) :
    (Keystore.RSA JSONKey.RSA k kid heap).2 = heap := by
  rcases Keystore.RSA_cases k kid heap with ⟨h, -⟩ | ⟨a, key, hfound, hcell, halg⟩
  · exact h
  · rw [Keystore.RSA_resolve JSONKey.RSA k kid heap a key hfound hcell halg] at hfail ⊢
    have hkeep : (JSONKey.RSA key).2 = key := by
      apply JSONKey.method_failure
      intro pk hpk
      apply hfail pk
      simp [hpk]
    simp [hkeep, set_cell_self heap a key hcell]

/-- A call of `Keystore.RSA` that returns a key: the kid has an RS256 entry, that entry
holds the key in its slot after the call, and before the call the slot was empty or
held the same key. -/
theorem Keystore.RSA_success (k : Keystore) (kid : String) (heap : Heap) (pk : PublicKey)
    (hok : (Keystore.RSA JSONKey.RSA k kid heap).1 = Outcome.ret (some pk) none) :
    ∃ a key1, k.index kid = some (some a)
      ∧ (Keystore.RSA JSONKey.RSA k kid heap).2[a]? = some key1
      ∧ key1.Alg = RS256 ∧ key1.precomputed = some pk
      ∧ (slot heap a = none ∨ slot heap a = some pk) := by
  rcases Keystore.RSA_cases k kid heap with ⟨-, h⟩ | ⟨a, key, hfound, hcell, halg⟩
  · exact absurd hok (h pk)
  · rw [Keystore.RSA_resolve JSONKey.RSA k kid heap a key hfound hcell halg] at hok ⊢
    have hres : (JSONKey.RSA key).1 = (some pk, none) := by
      simp only [Outcome.ret.injEq] at hok
      exact Prod.ext hok.1 hok.2
    obtain ⟨h1, h2, h3⟩ := JSONKey.method_success key pk hres
    have hlt : a < heap.length := by
      by_contra hge
      rw [List.getElem?_eq_none (by omega)] at hcell
      exact Option.noConfusion hcell
    refine ⟨a, (JSONKey.RSA key).2, hfound, ?_, h2.trans halg, h1, ?_⟩
    · simp [List.getElem?_set, hlt]
    · simpa [slot, hcell] using h3

/-- One call changes a cell in one way only: it fills the empty slot of the entry of the
kid with the key it returns. -/
theorem Keystore.RSA_heap (k : Keystore) (kid : String) (heap : Heap) (b : Nat) :
    (Keystore.RSA JSONKey.RSA k kid heap).2[b]? = heap[b]?
      ∨ ∃ key pk, heap[b]? = some key ∧ key.precomputed = none
          ∧ (Keystore.RSA JSONKey.RSA k kid heap).2[b]? = some { key with precomputed := some pk }
          ∧ (Keystore.RSA JSONKey.RSA k kid heap).1 = Outcome.ret (some pk) none
          ∧ k.index kid = some (some b) := by
  rcases Keystore.RSA_cases k kid heap with ⟨h, -⟩ | ⟨a, key, hfound, hcell, halg⟩
  · exact Or.inl (by rw [h])
  · rw [Keystore.RSA_resolve JSONKey.RSA k kid heap a key hfound hcell halg]
    have hlt : a < heap.length := by
      by_contra hge
      rw [List.getElem?_eq_none (by omega)] at hcell
      exact Option.noConfusion hcell
    rcases JSONKey.RSA_entry key with hsame | ⟨hempty, pk, hres, hfill⟩
    · exact Or.inl (by simp [hsame, set_cell_self heap a key hcell])
    · by_cases hab : a = b
      · subst hab
        refine Or.inr ⟨key, pk, hcell, hempty, ?_, ?_, hfound⟩
        · simp [List.getElem?_set, hlt, hfill]
        · simp [hres]
      · exact Or.inl (by simp [List.getElem?_set, hab])

/-- A slot that holds a key holds the same key after a call. -/
theorem Keystore.RSA_slot (k : Keystore) (kid : String) (heap : Heap) (b : Nat)
    (pk : PublicKey) (hslot : slot heap b = some pk) :
    slot (Keystore.RSA JSONKey.RSA k kid heap).2 b = some pk := by
  rcases Keystore.RSA_heap k kid heap b with h | ⟨key, pk1, hcell, hempty, -, -, -⟩
  · simpa [slot, h] using hslot
  · simp [slot, hcell, hempty] at hslot

/-- A slot that holds a key holds the same key after any sequence of calls. -/
theorem runCalls_slot (calls : List (Keystore × String)) (heap : Heap) (b : Nat)
    (pk : PublicKey) (hslot : slot heap b = some pk) :
    slot (runCalls calls heap) b = some pk := by
  induction calls generalizing heap with
  | nil => exact hslot
  | cons c cs ih => exact ih _ (Keystore.RSA_slot c.1 c.2 heap b pk hslot)

/-- The method keeps the memoized slot consistent. -/
theorem JSONKey.method_memoConsistent (j : JSONKey) (hmemo : j.memoConsistent) :
    (JSONKey.RSA j).2.memoConsistent := by
  rw [JSONKey.RSA_eq]
  cases hp : j.precomputed with
  | some pk => exact hmemo
  | none =>
    cases hd : j.decode with
    | none => exact hmemo
    | some pk =>
      right
      show some pk = JSONKey.decode { j with precomputed := some pk }
      rw [← hd]
      rfl

/-- A call of `Keystore.RSA` keeps every memoized slot of the heap consistent. -/
theorem Keystore.RSA_memoConsistent (k : Keystore) (kid : String) (heap : Heap)
    (hheap : heap.memoConsistent) :
    Heap.memoConsistent (Keystore.RSA JSONKey.RSA k kid heap).2 := by
  rcases Keystore.RSA_cases k kid heap with ⟨h, -⟩ | ⟨a, key, hfound, hcell, halg⟩
  · rw [h]
    exact hheap
  · rw [Keystore.RSA_resolve JSONKey.RSA k kid heap a key hfound hcell halg]
    intro j hj
    rcases List.mem_or_eq_of_mem_set hj with h | h
    · exact hheap j h
    · rw [h]
      exact JSONKey.method_memoConsistent key (hheap key (List.getElem?_mem hcell))

/-- Any sequence of calls keeps every memoized slot of the heap consistent. -/
theorem runCalls_memoConsistent (calls : List (Keystore × String)) (heap : Heap)
    (hheap : heap.memoConsistent) : Heap.memoConsistent (runCalls calls heap) := by
  induction calls generalizing heap with
  | nil => exact hheap
  | cons c cs ih => exact ih _ (Keystore.RSA_memoConsistent c.1 c.2 heap hheap)

/-! ## The records that `json.Unmarshal` yields have an empty slot -/

theorem decodeKeyMember_precomputed (k k1 : JSONKey) (m : String × JSON)
    (h : decodeKeyMember k m = Except.ok k1) : k1.precomputed = k.precomputed := by
  unfold decodeKeyMember at h
  split at h
  · cases hs : decodeString k.Exponent m.2 with
    | error e => simp [hs, Except.map] at h
    | ok s =>
      simp only [hs, Except.map, Except.ok.injEq] at h
      rw [← h]
  · split at h
    · cases hs : decodeString k.ID m.2 with
      | error e => simp [hs, Except.map] at h
      | ok s =>
        simp only [hs, Except.map, Except.ok.injEq] at h
        rw [← h]
    · split at h
      · cases hs : decodeString k.Alg m.2 with
        | error e => simp [hs, Except.map] at h
        | ok s =>
          simp only [hs, Except.map, Except.ok.injEq] at h
          rw [← h]
      · split at h
        · cases hs : decodeString k.Modulus m.2 with
          | error e => simp [hs, Except.map] at h
          | ok s =>
            simp only [hs, Except.map, Except.ok.injEq] at h
            rw [← h]
        · simp only [Except.ok.injEq] at h
          rw [← h]

theorem decodeKeyMembers_precomputed (ms : List (String × JSON)) (k k1 : JSONKey)
    (h : decodeKeyMembers k ms = Except.ok k1) : k1.precomputed = k.precomputed := by
  induction ms generalizing k with
  | nil =>
    simp only [decodeKeyMembers, Except.ok.injEq] at h
    rw [← h]
  | cons m ms ih =>
    simp only [decodeKeyMembers] at h
    cases hm : decodeKeyMember k m with
    | error e => simp [hm, Except.bind] at h
    | ok k2 =>
      simp only [hm, Except.bind] at h
      rw [ih k2 h, decodeKeyMember_precomputed k k2 m hm]

theorem decodeJSONKey_precomputed (v : JSON) (k k1 : JSONKey)
    (h : decodeJSONKey k v = Except.ok k1) : k1.precomputed = k.precomputed := by
  cases v with
  | object members => exact decodeKeyMembers_precomputed members k k1 h
  | null =>
    simp only [decodeJSONKey, Except.ok.injEq] at h
    rw [← h]
  | bool b => simp [decodeJSONKey] at h
  | number => simp [decodeJSONKey] at h
  | string s => simp [decodeJSONKey] at h
  | array elems => simp [decodeJSONKey] at h

theorem decodeElems_precomputed (vs : List JSON) (slots ks : List JSONKey)
    (hslots : ∀ j ∈ slots, j.precomputed = none)
    (h : decodeElems slots vs = Except.ok ks) : ∀ j ∈ ks, j.precomputed = none := by
  induction vs generalizing slots ks with
  | nil =>
    simp only [decodeElems, Except.ok.injEq] at h
    rw [← h]
    simp
  | cons v vs ih =>
    rw [decodeElems] at h
    cases hk : decodeJSONKey (slots.headD JSONKey.zero) v with
    | error e =>
      rw [hk] at h
      simp [Except.bind] at h
    | ok k1 =>
      rw [hk] at h
      cases hr : decodeElems slots.tail vs with
      | error e =>
        rw [hr] at h
        simp [Except.bind, Except.map] at h
      | ok ks1 =>
        rw [hr] at h
        simp only [Except.bind, Except.map, Except.ok.injEq] at h
        have hhead : (slots.headD JSONKey.zero).precomputed = none := by
          cases slots with
          | nil => rfl
          | cons s ss => exact hslots s (List.mem_cons_self s ss)
        have htail : ∀ j ∈ slots.tail, j.precomputed = none :=
          fun j hj => hslots j (List.mem_of_mem_tail hj)
        rw [← h]
        intro j hj
        rcases List.mem_cons.mp hj with rfl | hj
        · rw [decodeJSONKey_precomputed v _ _ hk, hhead]
        · exact ih _ _ htail hr j hj

theorem decodeSlice_precomputed (v : JSON) (st st1 : SliceState)
    (hslots : ∀ j ∈ st.slots, j.precomputed = none)
    (h : decodeSlice st v = Except.ok st1) : ∀ j ∈ st1.slots, j.precomputed = none := by
  cases v with
  | null =>
    simp only [decodeSlice, Except.ok.injEq] at h
    rw [← h]
    simp
  | array elems =>
    cases elems with
    | nil =>
      simp only [decodeSlice, Except.ok.injEq] at h
      rw [← h]
      simp
    | cons e es =>
      simp only [decodeSlice] at h
      cases hr : decodeElems st.slots (e :: es) with
      | error err => simp [hr, Except.map] at h
      | ok ks =>
        simp only [hr, Except.map, Except.ok.injEq] at h
        rw [← h]
        intro j hj
        rcases List.mem_append.mp hj with hj | hj
        · exact decodeElems_precomputed _ _ _ hslots hr j hj
        · exact hslots j (List.mem_of_mem_drop hj)
  | bool b => simp [decodeSlice] at h
  | number => simp [decodeSlice] at h
  | string s => simp [decodeSlice] at h
  | object members => simp [decodeSlice] at h

theorem decodeTopMembers_precomputed (ms : List (String × JSON)) (st st1 : SliceState)
    (hslots : ∀ j ∈ st.slots, j.precomputed = none)
    (h : decodeTopMembers st ms = Except.ok st1) :
    ∀ j ∈ st1.slots, j.precomputed = none := by
  induction ms generalizing st with
  | nil =>
    simp only [decodeTopMembers, Except.ok.injEq] at h
    rw [← h]
    exact hslots
  | cons m ms ih =>
    simp only [decodeTopMembers] at h
    split at h
    · cases hs : decodeSlice st m.2 with
      | error e => simp [hs, Except.bind] at h
      | ok st2 =>
        simp only [hs, Except.bind] at h
        exact ih st2 (decodeSlice_precomputed m.2 st st2 hslots hs) h
    · exact ih st hslots h

/-- Every record that `json.Unmarshal` yields has an empty memoized slot: the field is
unexported, so no member of the document reaches it. -/
theorem Unmarshal_precomputed (doc : String) (rawKS : rawKeystore)
    (hdec : Unmarshal doc = Except.ok rawKS) : ∀ j ∈ rawKS.Keys, j.precomputed = none := by
  unfold Unmarshal at hdec
  cases hs : scan doc with
  | none => simp [hs] at hdec
  | some v =>
    simp only [hs] at hdec
    cases v with
    | object members =>
      simp only [decodeRawKeystore] at hdec
      cases hm : decodeTopMembers ⟨[], 0⟩ members with
      | error e => simp [hm, Except.map] at hdec
      | ok st =>
        simp only [hm, Except.map, Except.ok.injEq] at hdec
        rw [← hdec]
        intro j hj
        exact decodeTopMembers_precomputed members ⟨[], 0⟩ st (by simp) hm j
          (List.mem_of_mem_take hj)
    | null =>
      simp only [decodeRawKeystore, Except.ok.injEq] at hdec
      rw [← hdec]
      simp
    | bool b => simp [decodeRawKeystore] at hdec
    | number => simp [decodeRawKeystore] at hdec
    | string s => simp [decodeRawKeystore] at hdec
    | array elems => simp [decodeRawKeystore] at hdec

/-! ## The heap and the pointers after `New` -/

theorem rangePerIteration_heap (keys : List JSONKey) (st : Entries × Heap) :
    (rangePerIteration keys st).2 = st.2 ++ keys := by
  induction keys generalizing st with
  | nil => simp [rangePerIteration]
  | cons key rest ih => simp [rangePerIteration, ih]

theorem rangePerIteration_valid (keys : List JSONKey) (st : Entries × Heap)
    (hvalid : st.1.valid st.2) :
    (rangePerIteration keys st).1.valid (rangePerIteration keys st).2 := by
  induction keys generalizing st with
  | nil => exact hvalid
  | cons key rest ih =>
    apply ih
    intro k2 p hp
    rw [Entries.index_assign] at hp
    by_cases h : key.ID = k2
    · rw [if_pos h] at hp
      exact ⟨st.2.length, (Option.some.inj hp).symm, by simp⟩
    · rw [if_neg h] at hp
      obtain ⟨a, ha, hlt⟩ := hvalid k2 p hp
      exact ⟨a, ha, by simp; omega⟩

theorem rangePerLoop_length (a : Nat) (keys : List JSONKey) (st : Entries × Heap) :
    (rangePerLoop a keys st).2.length = st.2.length := by
  rw [rangePerLoop_heap]
  cases keys.getLast? <;> simp

/-- Every pointer that `New` stores in the map is the address of a cell of the heap that
`New` returns; none is nil. -/
theorem New_valid (sem : RangeSemantics) (doc : String) (heap : Heap) (kid : String) (p : Ptr)
    (hp : (New sem doc heap).1.1.index kid = some p) :
    ∃ a key, p = some a ∧ (New sem doc heap).2[a]? = some key := by
  unfold New at hp ⊢
  cases hdec : Unmarshal doc with
  | error e => simp [hdec, Keystore.index] at hp
  | ok rawKS =>
    simp only [hdec] at hp ⊢
    cases sem with
    | perLoop =>
      simp only [Keystore.index, rangePerLoop_index] at hp
      have hlen := rangePerLoop_length heap.length rawKS.Keys ([], heap ++ [JSONKey.zero])
      have hlt : heap.length
          < (rangePerLoop heap.length rawKS.Keys ([], heap ++ [JSONKey.zero])).2.length := by
        rw [hlen]
        simp
      split at hp
      · refine ⟨heap.length, _, (Option.some.inj hp).symm, List.getElem?_eq_getElem hlt⟩
      · simp [Entries.index] at hp
    | perIteration =>
      have hvalid : Entries.valid [] heap := by
        intro k q hq
        simp [Entries.index] at hq
      obtain ⟨a, ha, hlt⟩ := rangePerIteration_valid rawKS.Keys ([], heap) hvalid kid p hp
      exact ⟨a, _, ha, List.getElem?_eq_getElem hlt⟩

/-- The heap that `New` returns has consistent memoized slots when the heap it started
from has: the cells that `New` adds have an empty slot. -/
theorem New_memoConsistent (sem : RangeSemantics) (doc : String) (heap : Heap)
    (hheap : heap.memoConsistent) : Heap.memoConsistent (New sem doc heap).2 := by
  unfold New
  cases hdec : Unmarshal doc with
  | error e => exact hheap
  | ok rawKS =>
    have hrec := Unmarshal_precomputed doc rawKS hdec
    cases sem with
    | perLoop =>
      simp only [rangePerLoop_heap]
      have hbase : Heap.memoConsistent (heap ++ [JSONKey.zero]) := by
        intro j hj
        rcases List.mem_append.mp hj with h | h
        · exact hheap j h
        · rw [List.mem_singleton.mp h]
          exact Or.inl rfl
      cases hl : rawKS.Keys.getLast? with
      | none => exact hbase
      | some last =>
        intro j hj
        rcases List.mem_or_eq_of_mem_set hj with h | h
        · exact hbase j h
        · rw [h]
          exact Or.inl (hrec last (List.mem_of_getLast?_eq_some hl))
    | perIteration =>
      simp only [rangePerIteration_heap]
      intro j hj
      rcases List.mem_append.mp hj with h | h
      · exact hheap j h
      · exact Or.inl (hrec j h)

theorem length_foldl_addKey_le (ids : List String) (ks : List String) :
    (ids.foldl addKey ks).length ≤ ks.length + ids.length := by
  induction ids generalizing ks with
  | nil => simp
  | cons i ids ih =>
    rw [List.foldl_cons]
    refine le_trans (ih _) ?_
    unfold addKey
    split <;> simp only [List.length_append, List.length_singleton, List.length_cons,
      List.length_nil] <;> omega


/-! ## The claims about `JSONKey.RSA` and about the map of `New` -/

/-- C11, as stated, fails for exponents that a Go `int` does not hold.  The entry whose
`e` is the encoding of the nine bytes of 2^64 resolves to the exponent 0, and the entry
whose `e` is the encoding of the eight bytes of 2^63 resolves to the exponent -2^63:
the low 64 bits, read as a signed number. -/
theorem Keystore.RSA_exponent_beyond_int :
    bigEndian [1, 0, 0, 0, 0, 0, 0, 0, 0] = 2 ^ 64
      ∧ base64urlEncode [1, 0, 0, 0, 0, 0, 0, 0, 0] = "AQAAAAAAAAAA"
      ∧ (Keystore.RSA JSONKey.RSA (some [("big", some 0)]) "big"
          [⟨"AQAAAAAAAAAA", "big", "RS256", "AQAB", none⟩]).1
        = Outcome.ret (some ⟨65537, 0⟩) none
      ∧ (Keystore.RSA JSONKey.RSA (some [("big", some 0)]) "big"
          [⟨"AQAAAAAAAAAA", "big", "RS256", "AQAB", none⟩]).1
        ≠ Outcome.ret (some ⟨65537, 2 ^ 64⟩) none
      ∧ bigEndian [128, 0, 0, 0, 0, 0, 0, 0] = 2 ^ 63
      ∧ base64urlEncode [128, 0, 0, 0, 0, 0, 0, 0] = "gAAAAAAAAAA"
      ∧ (Keystore.RSA JSONKey.RSA (some [("big", some 0)]) "big"
          [⟨"gAAAAAAAAAA", "big", "RS256", "AQAB", none⟩]).1
        = Outcome.ret (some ⟨65537, -(2 ^ 63)⟩) none := by
  refine ⟨?_, ?_, ?_, ?_, ?_, ?_, ?_⟩ <;> decide

/-- C11, amended: round trip.  For every integer m, every integer e below 2^63 and all
byte sequences that are big-endian representations of them, with or without leading zero
bytes, an RS256 entry whose n and e are the unpadded base64url encodings of these
sequences resolves to the key with modulus exactly m and exponent exactly e. -/
theorem Keystore.RSA_roundtrip (k : Keystore) (kid : String) (heap : Heap) (a : Nat)
    (key : JSONKey) (m e : Nat) (bn be : List Nat)
    (hfound : k.index kid = some (some a)) (hcell : heap[a]? = some key)
    (halg : key.Alg = RS256) (hmemo : key.memoConsistent)
    (hbn : ∀ b ∈ bn, b < 256) (hbe : ∀ b ∈ be, b < 256)
    (hm : bigEndian bn = m) (he : bigEndian be = e) (hfit : e < 2 ^ 63)
    (hn : key.Modulus = base64urlEncode bn) (hex : key.Exponent = base64urlEncode be) :
    (Keystore.RSA JSONKey.RSA k kid heap).1 = Outcome.ret (some ⟨m, (e : Int)⟩) none := by
  have hdec : key.decode = some ⟨m, (e : Int)⟩ := by
    simp [JSONKey.decode, hn, hex, base64urlDecode_encode bn hbn,
      base64urlDecode_encode be hbe, hm, he, goInt_of_lt e hfit]
  rw [Keystore.RSA_resolve JSONKey.RSA k kid heap a key hfound hcell halg,
    JSONKey.RSA_of_decode key ⟨m, (e : Int)⟩ hmemo hdec]

/-- Witness of the amended C11: the modulus 65537 written with two leading zero bytes,
the exponent 65537 written without. -/
theorem Keystore.RSA_roundtrip_witness :
    (Keystore.RSA JSONKey.RSA (some [("k1", some 0)]) "k1"
        [⟨"AQAB", "k1", "RS256", "AAABAAE", none⟩]).1
      = Outcome.ret (some ⟨65537, 65537⟩) none :=
  Keystore.RSA_roundtrip (some [("k1", some 0)]) "k1"
    [⟨"AQAB", "k1", "RS256", "AAABAAE", none⟩] 0 ⟨"AQAB", "k1", "RS256", "AAABAAE", none⟩
    65537 65537 [0, 0, 1, 0, 1] [1, 0, 1] (by decide) (by decide) (by decide) (Or.inl rfl)
    (by decide) (by decide) (by decide) (by decide) (by decide) (by decide) (by decide)

/-- C12: idempotence.  When `Keystore.RSA` returns a key for a kid, a second call with the
same kid returns the same key and a nil error; the entry holds that key in its memoized
slot, and the second call leaves the heap as it is. -/
theorem Keystore.RSA_idempotent (k : Keystore) (kid : String) (heap : Heap) (pk : PublicKey)
    (hok : (Keystore.RSA JSONKey.RSA k kid heap).1 = Outcome.ret (some pk) none) :
    Keystore.RSA JSONKey.RSA k kid (Keystore.RSA JSONKey.RSA k kid heap).2
        = (Outcome.ret (some pk) none, (Keystore.RSA JSONKey.RSA k kid heap).2)
      ∧ ∃ a key1, k.index kid = some (some a)
          ∧ (Keystore.RSA JSONKey.RSA k kid heap).2[a]? = some key1
          ∧ key1.precomputed = some pk := by
  obtain ⟨a, key1, hfound, hcell, halg, hslot, -⟩ := Keystore.RSA_success k kid heap pk hok
  exact ⟨Keystore.RSA_memoized k kid _ a key1 pk hfound hcell halg hslot,
    a, key1, hfound, hcell, hslot⟩

/-- Witness of C12: the entry `k1` with n = e = AQAB, resolved twice. -/
theorem Keystore.RSA_idempotent_witness :
    Keystore.RSA JSONKey.RSA (some [("k1", some 0)]) "k1"
          (Keystore.RSA JSONKey.RSA (some [("k1", some 0)]) "k1"
            [⟨"AQAB", "k1", "RS256", "AQAB", none⟩]).2
        = (Outcome.ret (some ⟨65537, 65537⟩) none,
            (Keystore.RSA JSONKey.RSA (some [("k1", some 0)]) "k1"
              [⟨"AQAB", "k1", "RS256", "AQAB", none⟩]).2)
      ∧ ∃ a key1, Keystore.index (some [("k1", some 0)]) "k1" = some (some a)
          ∧ (Keystore.RSA JSONKey.RSA (some [("k1", some 0)]) "k1"
              [⟨"AQAB", "k1", "RS256", "AQAB", none⟩]).2[a]? = some key1
          ∧ key1.precomputed = some ⟨65537, 65537⟩ :=
  Keystore.RSA_idempotent (some [("k1", some 0)]) "k1"
    [⟨"AQAB", "k1", "RS256", "AQAB", none⟩] ⟨65537, 65537⟩ (by decide)

/-- C13: for every RS256 entry whose n or e is not unpadded base64url, `Keystore.RSA`
returns, without panicking, no key and the error `MalformedKeyMaterial`, and it leaves
the heap as it is, so that every call that follows, on this or another keystore and for
any kid, returns what it would have returned without the failing call. -/
theorem Keystore.RSA_malformed (k : Keystore) (kid : String) (heap : Heap) (a : Nat)
    (key : JSONKey) (hfound : k.index kid = some (some a)) (hcell : heap[a]? = some key)
    (halg : key.Alg = RS256) (hmemo : key.memoConsistent)
    (hbad : base64urlDecode key.Modulus = none ∨ base64urlDecode key.Exponent = none) :
    Keystore.RSA JSONKey.RSA k kid heap
        = (Outcome.ret none (some Error.MalformedKeyMaterial), heap)
      ∧ ∀ (k2 : Keystore) (kid2 : String),
          Keystore.RSA JSONKey.RSA k2 kid2 (Keystore.RSA JSONKey.RSA k kid heap).2
            = Keystore.RSA JSONKey.RSA k2 kid2 heap := by
  have hdec : key.decode = none := by
    unfold JSONKey.decode
    rcases hbad with h | h
    · rw [h]
    · rw [h]
      cases base64urlDecode key.Modulus <;> rfl
  have hcall : Keystore.RSA JSONKey.RSA k kid heap
      = (Outcome.ret none (some Error.MalformedKeyMaterial), heap) := by
    rw [Keystore.RSA_resolve JSONKey.RSA k kid heap a key hfound hcell halg,
      JSONKey.RSA_of_decode_none key hmemo hdec]
    simp [set_cell_self heap a key hcell]
  refine ⟨hcall, ?_⟩
  intro k2 kid2
  rw [hcall]

/-- Witness of C13: a keystore with the malformed entry `y` and the sound entry `k1`. -/
theorem Keystore.RSA_malformed_witness :
    Keystore.RSA JSONKey.RSA (some [("y", some 0), ("k1", some 1)]) "y"
          [⟨"=", "y", "RS256", "*?*", none⟩, ⟨"AQAB", "k1", "RS256", "AQAB", none⟩]
        = (Outcome.ret none (some Error.MalformedKeyMaterial),
            [⟨"=", "y", "RS256", "*?*", none⟩, ⟨"AQAB", "k1", "RS256", "AQAB", none⟩])
      ∧ ∀ (k2 : Keystore) (kid2 : String),
          Keystore.RSA JSONKey.RSA k2 kid2
              (Keystore.RSA JSONKey.RSA (some [("y", some 0), ("k1", some 1)]) "y"
                [⟨"=", "y", "RS256", "*?*", none⟩, ⟨"AQAB", "k1", "RS256", "AQAB", none⟩]).2
            = Keystore.RSA JSONKey.RSA k2 kid2
                [⟨"=", "y", "RS256", "*?*", none⟩, ⟨"AQAB", "k1", "RS256", "AQAB", none⟩] :=
  Keystore.RSA_malformed (some [("y", some 0), ("k1", some 1)]) "y"
    [⟨"=", "y", "RS256", "*?*", none⟩, ⟨"AQAB", "k1", "RS256", "AQAB", none⟩] 0
    ⟨"=", "y", "RS256", "*?*", none⟩ (by decide) (by decide) (by decide) (Or.inl rfl)
    (Or.inl (by decide))

/-- C14: the memoized slot only moves from empty to resolved.  A call that returns no key
leaves the heap, and so every slot, as it is; a call that returns a key finds the slot of
its entry empty or holding that key and leaves the key in it; a slot that holds a key
holds the same key after any sequence of calls; so after any sequence of calls a slot is
what it was, unless it was empty. -/
theorem slot_empty_to_resolved :
    (∀ (k : Keystore) (kid : String) (heap : Heap),
        (∀ pk, (Keystore.RSA JSONKey.RSA k kid heap).1 ≠ Outcome.ret (some pk) none) →
          (Keystore.RSA JSONKey.RSA k kid heap).2 = heap)
      ∧ (∀ (k : Keystore) (kid : String) (heap : Heap) (pk : PublicKey),
          (Keystore.RSA JSONKey.RSA k kid heap).1 = Outcome.ret (some pk) none →
            ∃ a, k.index kid = some (some a)
              ∧ slot (Keystore.RSA JSONKey.RSA k kid heap).2 a = some pk
              ∧ (slot heap a = none ∨ slot heap a = some pk))
      ∧ (∀ (calls : List (Keystore × String)) (heap : Heap) (a : Nat) (pk : PublicKey),
          slot heap a = some pk → slot (runCalls calls heap) a = some pk)
      ∧ (∀ (calls : List (Keystore × String)) (heap : Heap) (a : Nat),
          slot (runCalls calls heap) a = slot heap a ∨ slot heap a = none) := by
  refine ⟨Keystore.RSA_failure, ?_, runCalls_slot, ?_⟩
  · intro k kid heap pk hok
    obtain ⟨a, key1, hfound, hcell, -, hslot, hbefore⟩ := Keystore.RSA_success k kid heap pk hok
    exact ⟨a, hfound, by simp [slot, hcell, hslot], hbefore⟩
  · intro calls heap a
    cases hs : slot heap a with
    | none => exact Or.inr rfl
    | some pk => exact Or.inl (runCalls_slot calls heap a pk hs)

/-- C15: reconstruction is permissive.  For every RS256 entry whose n and e decode, to
whatever byte sequences, `Keystore.RSA` returns a key and a nil error: the modulus is the
integer of n, the exponent is the integer of e converted to `int`; no property of the
integers is looked at, and no size makes the call fail. -/
theorem Keystore.RSA_permissive (k : Keystore) (kid : String) (heap : Heap) (a : Nat)
    (key : JSONKey) (bn be : List Nat)
    (hfound : k.index kid = some (some a)) (hcell : heap[a]? = some key)
    (halg : key.Alg = RS256) (hmemo : key.memoConsistent)
    (hn : base64urlDecode key.Modulus = some bn)
    (hex : base64urlDecode key.Exponent = some be) :
    (Keystore.RSA JSONKey.RSA k kid heap).1
      = Outcome.ret (some ⟨bigEndian bn, goInt (bigEndian be)⟩) none := by
  have hdec : key.decode = some ⟨bigEndian bn, goInt (bigEndian be)⟩ := by
    simp [JSONKey.decode, hn, hex]
  rw [Keystore.RSA_resolve JSONKey.RSA k kid heap a key hfound hcell halg,
    JSONKey.RSA_of_decode key _ hmemo hdec]

/-- Witness of C15: the modulus 2 with the even exponent 4, and the exponent 2^64, which
is beyond every `int`. -/
theorem Keystore.RSA_permissive_witness :
    (Keystore.RSA JSONKey.RSA (some [("tiny", some 0)]) "tiny"
        [⟨"BA", "tiny", "RS256", "Ag", none⟩]).1
        = Outcome.ret (some ⟨2, 4⟩) none
      ∧ (Keystore.RSA JSONKey.RSA (some [("big", some 0)]) "big"
          [⟨"AQAAAAAAAAAA", "big", "RS256", "AQAB", none⟩]).1
        = Outcome.ret (some ⟨65537, 0⟩) none :=
  ⟨Keystore.RSA_permissive (some [("tiny", some 0)]) "tiny"
    [⟨"BA", "tiny", "RS256", "Ag", none⟩] 0 ⟨"BA", "tiny", "RS256", "Ag", none⟩ [2] [4]
    (by decide) (by decide) (by decide) (Or.inl rfl) (by decide) (by decide),
  Keystore.RSA_permissive (some [("big", some 0)]) "big"
    [⟨"AQAAAAAAAAAA", "big", "RS256", "AQAB", none⟩] 0
    ⟨"AQAAAAAAAAAA", "big", "RS256", "AQAB", none⟩ [1, 0, 1] [1, 0, 0, 0, 0, 0, 0, 0, 0]
    (by decide) (by decide) (by decide) (Or.inl rfl) (by decide) (by decide)⟩

/-- C16: for every document that decodes, the keys of the map that `New` returns are
exactly the IDs that occur in the records: a kid is found if and only if a record has it,
the map has no more entries than there are records, and a record whose ID is the empty
string is found under the empty string. -/
theorem New_key_set (sem : RangeSemantics) (doc : String) (rawKS : rawKeystore)
    (heap : Heap) (hdec : Unmarshal doc = Except.ok rawKS) :
    (∀ kid, (New sem doc heap).1.1.index kid ≠ none ↔ kid ∈ rawKS.Keys.map JSONKey.ID)
      ∧ (New sem doc heap).1.1.len ≤ rawKS.Keys.length
      ∧ (∀ r ∈ rawKS.Keys, r.ID = "" → (New sem doc heap).1.1.index "" ≠ none) := by
  obtain ⟨m, hnew, hkeys⟩ := New_ok sem doc rawKS heap hdec
  have hiff : ∀ kid, (New sem doc heap).1.1.index kid ≠ none
      ↔ kid ∈ rawKS.Keys.map JSONKey.ID := by
    intro kid
    rw [hnew]
    show m.index kid ≠ none ↔ _
    rw [Ne, Entries.index_eq_none_iff, hkeys, not_not, mem_foldl_addKey]
    simp
  refine ⟨hiff, ?_, ?_⟩
  · rw [hnew]
    show m.length ≤ _
    have h := length_foldl_addKey_le (rawKS.Keys.map JSONKey.ID) []
    rw [← hkeys] at h
    simpa using h
  · intro r hr hid
    rw [hiff]
    exact List.mem_map.mpr ⟨r, hr, hid⟩

/-- Witness of C16: the document with the records `x`, `y` and a record without kid. -/
theorem New_key_set_witness :
    (∀ kid, (New RangeSemantics.perLoop docDefective []).1.1.index kid ≠ none
        ↔ kid ∈ ["x", "y", ""])
      ∧ (New RangeSemantics.perLoop docDefective []).1.1.len ≤ 3
      ∧ (∀ r ∈ [(⟨"AQAB", "x", "HS256", "AQAB", none⟩ : JSONKey),
            ⟨"=", "y", "RS256", "*?*", none⟩, ⟨"", "", "", "", none⟩],
          r.ID = "" → (New RangeSemantics.perLoop docDefective []).1.1.index "" ≠ none) :=
  New_key_set RangeSemantics.perLoop docDefective
    ⟨[⟨"AQAB", "x", "HS256", "AQAB", none⟩, ⟨"=", "y", "RS256", "*?*", none⟩,
      ⟨"", "", "", "", none⟩]⟩ [] rfl

/-- C17: on the keystore that `New` returns, `Keystore.RSA` never dereferences a nil
pointer: every pointer found in the map is the address of a cell, so no call panics,
whatever the document, the kid and the method `key.RSA` are; and when `New` returns an
error, its keystore is the nil map, on which every call returns `ErrKIDNotFound`. -/
theorem New_no_nil_entry (sem : RangeSemantics) (method : KeyMethod) (doc : String)
    (heap : Heap) (kid : String) :
    (∀ p, (New sem doc heap).1.1.index kid = some p →
        ∃ a key, p = some a ∧ (New sem doc heap).2[a]? = some key)
      ∧ (Keystore.RSA method (New sem doc heap).1.1 kid (New sem doc heap).2).1
          ≠ Outcome.panic
      ∧ ((New sem doc heap).1.2 ≠ none →
          (New sem doc heap).1.1 = none
            ∧ Keystore.RSA method (New sem doc heap).1.1 kid (New sem doc heap).2
              = (Outcome.ret none (some Error.ErrKIDNotFound), (New sem doc heap).2)) := by
  refine ⟨fun p hp => New_valid sem doc heap kid p hp, ?_, ?_⟩
  · cases hidx : (New sem doc heap).1.1.index kid with
    | none => simp [Keystore.RSA, hidx]
    | some p =>
      obtain ⟨a, key, hp, hcell⟩ := New_valid sem doc heap kid p hidx
      subst hp
      by_cases halg : key.Alg = RS256 <;> simp [Keystore.RSA, hidx, deref, hcell, halg]
  · intro herr
    have hnil : (New sem doc heap).1.1 = none := by
      unfold New at herr ⊢
      cases hdec : Unmarshal doc with
      | error e => rfl
      | ok rawKS => simp [hdec] at herr
    refine ⟨hnil, ?_⟩
    rw [hnil]
    rfl

/-! ## Construction and the defects of the records -/

/-- An entry stored under a kid is the content of the cell that the map points to. -/
theorem Keystore.entry_cell (k : Keystore) (heap : Heap) (kid : String) (key : JSONKey)
    (h : k.entry heap kid = some key) :
    ∃ a, k.index kid = some (some a) ∧ heap[a]? = some key := by
  unfold Keystore.entry at h
  cases hidx : k.index kid with
  | none => simp [hidx] at h
  | some p =>
    cases p with
    | none => simp [hidx, deref] at h
    | some a => exact ⟨a, rfl, by simpa [hidx, deref] using h⟩

/-- Every entry of the keystore that `New` returns is a record of the document. -/
theorem New_entry_mem (sem : RangeSemantics) (doc : String) (rawKS : rawKeystore)
    (heap : Heap) (hdec : Unmarshal doc = Except.ok rawKS) (kid : String) (key : JSONKey)
    (h : (New sem doc heap).1.1.entry (New sem doc heap).2 kid = some key) :
    key ∈ rawKS.Keys := by
  cases sem with
  | perLoop =>
    by_cases hkid : kid ∈ rawKS.Keys.map JSONKey.ID
    · rw [New_perLoop_entry doc rawKS heap hdec kid hkid] at h
      exact List.mem_of_getLast?_eq_some h
    · simp [New, hdec, Keystore.entry, Keystore.index, rangePerLoop_index, hkid,
        Entries.index] at h
  | perIteration =>
    rw [New_perIteration_entry doc rawKS heap hdec kid] at h
    exact List.mem_reverse.mp (List.mem_of_find?_eq_some h)

/-- The last record of the document is the entry stored under its own kid, for either
meaning of the loop variable. -/
theorem New_entry_last (sem : RangeSemantics) (doc : String) (rawKS : rawKeystore)
    (heap : Heap) (hdec : Unmarshal doc = Except.ok rawKS) (last : JSONKey)
    (hlast : rawKS.Keys.getLast? = some last) :
    (New sem doc heap).1.1.entry (New sem doc heap).2 last.ID = some last := by
  cases sem with
  | perLoop =>
    rw [New_perLoop_entry doc rawKS heap hdec last.ID
      (List.mem_map.mpr ⟨last, List.mem_of_getLast?_eq_some hlast, rfl⟩)]
    exact hlast
  | perIteration =>
    rw [New_perIteration_entry doc rawKS heap hdec last.ID]
    obtain ⟨ys, hys⟩ := List.getLast?_eq_some_iff.mp hlast
    rw [hys]
    simp

/-- C9, as stated, fails.  An absent n and e does not surface when `Keystore.RSA` is
called for the kid of the record: the single record `z` of `docNoMaterial` resolves to
the key (0, 0) with a nil error, for either meaning of the loop variable.  And with one
loop variable for the whole loop, the call for `y` on `docDefective` reports the absent
alg of the last record, which has another kid, and not the n and e of the record `y`,
an RS256 record. -/
theorem New_defect_not_surfacing :
    Unmarshal docNoMaterial = Except.ok ⟨[⟨"", "z", "RS256", "", none⟩]⟩
      ∧ (New RangeSemantics.perIteration docNoMaterial []).1.2 = none
      ∧ (Keystore.RSA JSONKey.RSA (New RangeSemantics.perIteration docNoMaterial []).1.1 "z"
          (New RangeSemantics.perIteration docNoMaterial []).2).1
        = Outcome.ret (some ⟨0, 0⟩) none
      ∧ (Keystore.RSA JSONKey.RSA (New RangeSemantics.perLoop docNoMaterial []).1.1 "z"
          (New RangeSemantics.perLoop docNoMaterial []).2).1
        = Outcome.ret (some ⟨0, 0⟩) none
      ∧ Unmarshal docDefective
        = Except.ok ⟨[⟨"AQAB", "x", "HS256", "AQAB", none⟩, ⟨"=", "y", "RS256", "*?*", none⟩,
            ⟨"", "", "", "", none⟩]⟩
      ∧ (Keystore.RSA JSONKey.RSA (New RangeSemantics.perLoop docDefective []).1.1 "y"
          (New RangeSemantics.perLoop docDefective []).2).1
        = Outcome.ret none (some Error.ErrNotExpectedKeyType) := by
  refine ⟨rfl, ?_, ?_, ?_, rfl, ?_⟩ <;> decide

/-- C9, amended: construction validates no record: for every document that decodes,
whatever the alg, n and e of its records are, `New` returns a non-nil keystore and a nil
error.  What a later `Keystore.RSA` reports for a kid is the state of the entry stored
under that kid, which is a record of the document: `ErrNotExpectedKeyType` when its alg
is not RS256, `MalformedKeyMaterial` when its alg is RS256 and its n or its e is not
base64url, and the key (0, 0) with a nil error when its alg is RS256 and its n and e are
absent.  The last record of the document is the entry stored under its own kid. -/
theorem New_no_validation (sem : RangeSemantics) (doc : String) (rawKS : rawKeystore)
    (heap : Heap) (hdec : Unmarshal doc = Except.ok rawKS) :
    (New sem doc heap).1.2 = none
      ∧ (New sem doc heap).1.1 ≠ none
      ∧ (∀ kid key, (New sem doc heap).1.1.entry (New sem doc heap).2 kid = some key →
          key ∈ rawKS.Keys
          ∧ (key.Alg ≠ RS256 →
              (Keystore.RSA JSONKey.RSA (New sem doc heap).1.1 kid (New sem doc heap).2).1
                = Outcome.ret none (some Error.ErrNotExpectedKeyType))
          ∧ (key.Alg = RS256 →
              base64urlDecode key.Modulus = none ∨ base64urlDecode key.Exponent = none →
              (Keystore.RSA JSONKey.RSA (New sem doc heap).1.1 kid (New sem doc heap).2).1
                = Outcome.ret none (some Error.MalformedKeyMaterial))
          ∧ (key.Alg = RS256 → key.Modulus = "" → key.Exponent = "" →
              (Keystore.RSA JSONKey.RSA (New sem doc heap).1.1 kid (New sem doc heap).2).1
                = Outcome.ret (some ⟨0, 0⟩) none))
      ∧ (∀ last, rawKS.Keys.getLast? = some last →
          (New sem doc heap).1.1.entry (New sem doc heap).2 last.ID = some last) := by
  obtain ⟨m, hnew, -⟩ := New_ok sem doc rawKS heap hdec
  refine ⟨by rw [hnew], by rw [hnew]; simp, ?_, New_entry_last sem doc rawKS heap hdec⟩
  intro kid key hentry
  have hmem := New_entry_mem sem doc rawKS heap hdec kid key hentry
  have hmemo : key.memoConsistent := Or.inl (Unmarshal_precomputed doc rawKS hdec key hmem)
  obtain ⟨a, hfound, hcell⟩ := Keystore.entry_cell _ _ kid key hentry
  refine ⟨hmem, ?_, ?_, ?_⟩
  · intro halg
    simp [Keystore.RSA, hfound, deref, hcell, halg]
  · intro halg hbad
    have hnone : key.decode = none := by
      unfold JSONKey.decode
      rcases hbad with h | h
      · rw [h]
      · rw [h]
        cases base64urlDecode key.Modulus <;> rfl
    rw [Keystore.RSA_resolve JSONKey.RSA _ kid _ a key hfound hcell halg,
      JSONKey.RSA_of_decode_none key hmemo hnone]
  · intro halg hn he
    have hzero : key.decode = some ⟨0, 0⟩ := by
      unfold JSONKey.decode
      rw [hn, he]
      decide
    rw [Keystore.RSA_resolve JSONKey.RSA _ kid _ a key hfound hcell halg,
      JSONKey.RSA_of_decode key ⟨0, 0⟩ hmemo hzero]

/-- Witness of the amended C9: the document with a record of an unsupported algorithm, a
record whose n and e are not base64url, and a record without any field; with a loop
variable for every iteration the call for `x` reports the algorithm and the call for `y`
the key material. -/
theorem New_no_validation_witness :
    Unmarshal docDefective
        = Except.ok ⟨[⟨"AQAB", "x", "HS256", "AQAB", none⟩, ⟨"=", "y", "RS256", "*?*", none⟩,
            ⟨"", "", "", "", none⟩]⟩
      ∧ (New RangeSemantics.perIteration docDefective []).1.2 = none
      ∧ (New RangeSemantics.perIteration docDefective []).1.1 ≠ none
      ∧ (Keystore.RSA JSONKey.RSA (New RangeSemantics.perIteration docDefective []).1.1 "x"
          (New RangeSemantics.perIteration docDefective []).2).1
        = Outcome.ret none (some Error.ErrNotExpectedKeyType)
      ∧ (Keystore.RSA JSONKey.RSA (New RangeSemantics.perIteration docDefective []).1.1 "y"
          (New RangeSemantics.perIteration docDefective []).2).1
        = Outcome.ret none (some Error.MalformedKeyMaterial) :=
  have h := New_no_validation RangeSemantics.perIteration docDefective
    ⟨[⟨"AQAB", "x", "HS256", "AQAB", none⟩, ⟨"=", "y", "RS256", "*?*", none⟩,
      ⟨"", "", "", "", none⟩]⟩ [] rfl
  ⟨rfl, h.1, h.2.1,
    (h.2.2.1 "x" ⟨"AQAB", "x", "HS256", "AQAB", none⟩ (by decide)).2.1 (by decide),
    (h.2.2.1 "y" ⟨"=", "y", "RS256", "*?*", none⟩ (by decide)).2.2.1 (by decide)
      (Or.inl (by decide))⟩

end jwks
